import Mathlib

/-!
RandomAccess (GUPS) update kernel, OpenSHMEM variant.

A shallow embedding of `SHMEMRandomAccess.c`:

* `starts` with its helper loops and the generator step of line 260 (`advance`);
* the per-node locals of `Power2NodesRandomAccessUpdate` (`niterate`, `logTableLocal`,
  `nlocalm1`, `remote_proc`, `index`), with the conversions to the C type `int` made explicit;
* the symmetric variables `ran`, `count`, `updates`, `HPCC_Table` of all PEs as one state `Sys`,
  and the round structure of the SHMEM path (lines 250-284) as explicit state passing.

64-bit values are natural numbers below `2 ^ 64` (the bit pattern); signed readings are
made explicit where the source uses them.  `POLY`, `PERIOD` and `ZERO64B` come from
`RandomAccess.h`, which is not part of the sources at hand: `POLY` and `PERIOD` are parameters,
`ZERO64B` is the constant zero.  An access outside an array, a shift by a count outside
`[0, 64)` and a remote operation on a PE that does not exist have no defined result in C:
the embedding returns `none` there.

The parameters `TableSize`, `MinLocalTableSize`, `Top`, `NumProcs`, `Remainder` and `MyProc`
of the routine are never read by its body and are left out.
-/

namespace GUPS

/-! ## Machine integers -/

/-- Conversion to the C type `int` (32 bits, two's complement, wrapping). -/
def toInt32 (x : Int) : Int := (x + 2 ^ 31) % 2 ^ 32 - 2 ^ 31

/-- Conversion to `u64Int`: the 64-bit pattern of an integer. -/
def toU64 (x : Int) : Nat := (x % 2 ^ 64).toNat

/-- Right shift of a signed 64-bit value (`s64Int >> k`, sign filling), on bit patterns. -/
def sar64 (x k : Nat) : Nat :=
  if x.testBit 63 then (x >>> k) ||| (2 ^ 64 - 2 ^ (64 - k)) else x >>> k

/-! ## The generator (`starts`, and the step of line 260) -/

/-- Capacity of the pending-update buffer `updates`. -/
def MAXTHREADS : Nat := 256

/-- One generator step: `(x << 1) ^ ((s64Int) x < 0 ? POLY : 0)` on 64 bits. -/
def advance (POLY x : Nat) : Nat :=
  ((x <<< 1) % 2 ^ 64) ^^^ (if x.testBit 63 then POLY else 0)

/-- The table `m2` of `starts`: `m2[i] = temp`, then `temp` is stepped twice. -/
def buildM2 (POLY : Nat) : Nat → Nat → List Nat
  | 0, _ => []
  | k + 1, temp => temp :: buildM2 POLY k (advance POLY (advance POLY temp))

/-- The loop `while (n > PERIOD) n -= PERIOD;` of `starts`, with a bound on its iterations. -/
def reducePeriod (PERIOD : Nat) : Nat → Nat → Nat
  | 0, n => n
  | fuel + 1, n => if n > PERIOD then reducePeriod PERIOD fuel (n - PERIOD) else n

/-- The scan `for (i=62; i>=0; i--) if ((n >> i) & 1) break;`, started with `i = k - 1`;
the result is the final `i` (`-1` when no bit is found). -/
def findTop (n : Nat) : Nat → Int
  | 0 => -1
  | k + 1 => if (n >>> k) &&& 1 ≠ 0 then (k : Int) else findTop n k

/-- The inner loop of `starts`: `temp = 0; for (j=0; j<64; j++) if ((ran >> j) & 1) temp ^= m2[j];`. -/
def square (m2 : List Nat) (ran : Nat) : Nat :=
  (List.range 64).foldl
    (fun temp j => if (ran >>> j) &&& 1 ≠ 0 then temp ^^^ m2.getD j 0 else temp) 0

/-- The loop `while (i > 0)` of `starts`; the first argument is the current `i`. -/
def startsLoop (POLY n : Nat) (m2 : List Nat) : Nat → Nat → Nat
  | 0, ran => ran
  | i + 1, ran =>
    let temp := square m2 ran
    startsLoop POLY n m2 i (if (n >>> i) &&& 1 ≠ 0 then advance POLY temp else temp)

/-- The routine `starts(n)` for an unsigned 64-bit `n`.  The loop `while (n < 0)` never runs
for an unsigned `n`; the reduction loop runs at most `n` times when `PERIOD` is positive. -/
def starts (POLY PERIOD n : Nat) : Nat :=
  let n := reducePeriod PERIOD n n
  if n = 0 then 1
  else startsLoop POLY n (buildM2 POLY 64 1) (findTop n 63).toNat 2

/-- The k-th element of the sequence: `k` generator steps applied to `1`. -/
def pw (POLY k : Nat) : Nat := (advance POLY)^[k] 1

/-- The value of `POLY` in the HPCC header `RandomAccess.h`. -/
def POLY_HPCC : Nat := 7

/-- The value of `PERIOD` in the HPCC header `RandomAccess.h`. -/
def PERIOD_HPCC : Nat := 1317624576693539401

/-- Modelled from the spec: the constant `PERIOD` of the missing header `RandomAccess.h`,
given in the specification as `2^63 - 1`. -/
def PERIOD_SPEC : Nat := 2 ^ 63 - 1

/-! ## The update routine -/

/-- The inputs of `Power2NodesRandomAccessUpdate` that its body reads, the two header constants,
and the number of PEs (`shmem_n_pes()`).  `GlobalStartMyProc` is given per PE; the other
arguments are the same on every PE. -/
structure Params where
  POLY : Nat
  PERIOD : Nat
  logTableSize : Nat
  LocalTableSize : Nat
  logNumProcs : Int
  numNodes : Nat
  ProcNumUpdates : Int
  GlobalStartMyProc : Nat → Nat

/-- The symmetric variables of all PEs, indexed by PE number, and the locals
`remote_proc`, `remotecount` of each PE. -/
structure Sys where
  ran : Nat → Nat
  count : Nat → Nat
  updates : Nat → Nat → Nat
  HPCC_Table : Nat → Nat → Nat
  remote_proc : Nat → Int
  remotecount : Nat → Nat

/-- Line 240: `niterate = ProcNumUpdates;` with `int niterate` and `s64Int ProcNumUpdates`. -/
def niterate (c : Params) : Int := toInt32 c.ProcNumUpdates

/-- Line 241: `logTableLocal = logTableSize - logNumProcs;` (unsigned 64-bit difference
stored in an `int`). -/
def logTableLocal (c : Params) : Int :=
  toInt32 (toU64 ((c.logTableSize : Int) - c.logNumProcs))

/-- Line 242: `nlocalm1 = LocalTableSize - 1;` (unsigned 64-bit difference stored in an `int`). -/
def nlocalm1 (c : Params) : Int :=
  toInt32 (toU64 ((c.LocalTableSize : Int) - 1))

/-- Line 261: `remote_proc = (ran >> logTableLocal) & (numNodes - 1);` with `ran` signed,
the mask an `int` widened to 64 bits, and the result stored in an `int`. -/
def remote_proc (c : Params) (ran : Nat) : Int :=
  toInt32 ((sar64 ran (logTableLocal c).toNat &&& toU64 ((c.numNodes : Int) - 1) : Nat) : Int)

/-- Line 277: `index = datum & nlocalm1;` with `datum` unsigned, `nlocalm1` an `int` widened
to 64 bits, and the result stored in an `int`. -/
def index (c : Params) (datum : Nat) : Int :=
  toInt32 ((datum &&& toU64 (nlocalm1 c) : Nat) : Int)

/-- Lines 228 and 244-245 on every PE: `ran = starts(4*GlobalStartMyProc)` (the product in
unsigned 64-bit arithmetic) and `updates[j] = 0` for `j < MAXTHREADS`. -/
def setup (c : Params) (s : Sys) : Sys :=
  { s with
    ran := fun p => starts c.POLY c.PERIOD ((4 * c.GlobalStartMyProc p) % 2 ^ 64)
    updates := fun p j => if j < MAXTHREADS then 0 else s.updates p j }

/-- Line 251 on every PE: `count = 0`. -/
def roundStart (s : Sys) : Sys :=
  { s with count := fun _ => 0 }

/-- Lines 271-272 on PE `q` with owner `rp`: reserve a slot at the owner with the atomic
fetch-and-add on its `count` (`remotecount` is the value fetched), and put `ran` into the
owner's `updates` at the reserved slot.  The put is taken together with its reservation: the
two are separated by no barrier, and the owner reads the slot only after the barrier of
line 273. -/
def reserveAndPut (c : Params) (s : Sys) (q : Nat) (rp : Int) : Option Sys :=
  if 0 ≤ rp ∧ rp < (c.numNodes : Int) then
    let rc := s.count rp.toNat
    if rc < MAXTHREADS then
      some { s with
        remote_proc := Function.update s.remote_proc q rp
        remotecount := Function.update s.remotecount q rc
        count := Function.update s.count rp.toNat (rc + 1)
        updates := Function.update s.updates rp.toNat
          (Function.update (s.updates rp.toNat) rc (s.ran q)) }
    else none
  else none

/-- Line 271 alone on PE `q` with owner `rp`: the atomic fetch-and-add on the owner's `count`;
`remotecount` is the value fetched. -/
def fetchAdd (c : Params) (s : Sys) (q : Nat) (rp : Int) : Option Sys :=
  if 0 ≤ rp ∧ rp < (c.numNodes : Int) then
    some { s with
      remote_proc := Function.update s.remote_proc q rp
      remotecount := Function.update s.remotecount q (s.count rp.toNat)
      count := Function.update s.count rp.toNat (s.count rp.toNat + 1) }
  else none

/-- Line 272 alone on PE `q`: the put of `ran` into `updates[remotecount]` at the owner. -/
def put (s : Sys) (q : Nat) : Option Sys :=
  if s.remotecount q < MAXTHREADS then
    some { s with
      updates := Function.update s.updates (s.remote_proc q).toNat
        (Function.update (s.updates (s.remote_proc q).toNat) (s.remotecount q) (s.ran q)) }
  else none

/-- Lines 260-272 on PE `q`: step the generator, find the owner of the new value, reserve a
slot there and put the value into it. -/
def route (c : Params) (s : Sys) (q : Nat) : Option Sys :=
  let ran := advance c.POLY (s.ran q)
  if 0 ≤ logTableLocal c ∧ logTableLocal c < 64 then
    reserveAndPut c { s with ran := Function.update s.ran q ran } q (remote_proc c ran)
  else none

/-- Modelled from the spec: the number of words of `HPCC_Table` on one PE.  The table is
declared and allocated outside the sources at hand; the specification gives every PE a
partition of `LocalTableSize` words. -/
def tableWords (c : Params) : Nat := c.LocalTableSize

/-- Lines 276-279 on PE `p`, for one value of the loop variable `i`: read `updates[i]`,
XOR it into `HPCC_Table[index]`, clear `updates[i]`. -/
def applyOne (c : Params) (p : Nat) (s : Sys) (i : Nat) : Option Sys :=
  if i < MAXTHREADS then
    let datum := s.updates p i
    let idx := index c datum
    if 0 ≤ idx ∧ idx < (tableWords c : Int) then
      some { s with
        HPCC_Table := Function.update s.HPCC_Table p
          (Function.update (s.HPCC_Table p) idx.toNat (s.HPCC_Table p idx.toNat ^^^ datum))
        updates := Function.update s.updates p (Function.update (s.updates p) i 0) }
    else none
  else none

/-- Lines 275-280 on PE `p`: `for(i=0;i<count;i++) ...`. -/
def applyUpdates (c : Params) (s : Sys) (p : Nat) : Option Sys :=
  (List.range (s.count p)).foldlM (applyOne c p) s

/-- The route phase of one round: the PEs of `sched` perform lines 260-272 one after the other,
in the order in which their fetch-and-add operations take effect. -/
def routePhase (c : Params) (sched : List Nat) (s : Sys) : Option Sys :=
  sched.foldlM (route c) s

/-- The apply phase of one round: every PE drains its own buffer. -/
def applyPhase (c : Params) (s : Sys) : Option Sys :=
  (List.range c.numNodes).foldlM (applyUpdates c) s

/-- One iteration of the loop of line 250 on all PEs: `count = 0`, barrier, route, barrier,
apply. -/
def oneRound (c : Params) (sched : List Nat) (s : Sys) : Option Sys :=
  (routePhase c sched (roundStart s)).bind (applyPhase c)

/-- The first `k` iterations of the loop of line 250; `scheds i` is the order of the
reservations in iteration `i`. -/
def rounds (c : Params) (scheds : Nat → List Nat) : Nat → Sys → Option Sys
  | 0, s => some s
  | k + 1, s => (rounds c scheds k s).bind (oneRound c (scheds k))

/-- The number of iterations of `for (iterate = 0; iterate < niterate; iterate++)`. -/
def roundsExecuted (c : Params) : Nat := (niterate c).toNat

/-- The routine on all PEs in lock step. -/
def Power2NodesRandomAccessUpdate (c : Params) (scheds : Nat → List Nat) (s : Sys) :
    Option Sys :=
  rounds c scheds (roundsExecuted c) (setup c s)

/-! ## Notions used in the statements -/

/-- Every round's reservations happen in an order that contains every PE exactly once. -/
def ValidScheds (c : Params) (scheds : Nat → List Nat) : Prop :=
  ∀ k, (scheds k).Perm (List.range c.numNodes)

/-- XOR of a list of words. -/
def xorList (l : List Nat) : Nat := l.foldr (fun v acc => v ^^^ acc) 0

/-- The values delivered to PE `p` and not yet applied: `updates[0..count-1]`. -/
def pending (s : Sys) (p : Nat) : List Nat :=
  (List.range (s.count p)).map (s.updates p)

/-- The value PE `q` generates in its `r`-th round (`r ≥ 1`). -/
def genValue (c : Params) (q r : Nat) : Nat :=
  (advance c.POLY)^[r] (starts c.POLY c.PERIOD ((4 * c.GlobalStartMyProc q) % 2 ^ 64))

/-- All values generated by all PEs in `r` rounds that begin with the generator states `ran0`. -/
def valuesFrom (c : Params) (ran0 : Nat → Nat) (r : Nat) : List Nat :=
  (List.range r).flatMap fun k => (List.range c.numNodes).map fun q =>
    (advance c.POLY)^[k + 1] (ran0 q)

/-- All values generated by all PEs in the first `r` rounds of a run. -/
def streamValues (c : Params) (r : Nat) : List Nat :=
  valuesFrom c (fun q => starts c.POLY c.PERIOD ((4 * c.GlobalStartMyProc q) % 2 ^ 64)) r

/-- The routine sends the value `v` to PE `p` and applies it to slot `j` there. -/
def addressed (c : Params) (p j v : Nat) : Bool :=
  decide (remote_proc c v = (p : Int) ∧ index c v = (j : Int))

/-- State of the reservations after the PEs of `done` have routed: owners exist, the PEs that
share an owner hold distinct slots, the slots reserved at an owner are exactly those below
its counter, and every routed value sits in its slot. -/
def Reserved (c : Params) (done : List Nat) (s : Sys) : Prop :=
  (∀ q, q ∈ done → 0 ≤ s.remote_proc q ∧ s.remote_proc q < (c.numNodes : Int)) ∧
  (∀ q, q ∈ done → ∀ q', q' ∈ done → q ≠ q' → s.remote_proc q = s.remote_proc q' →
    s.remotecount q ≠ s.remotecount q') ∧
  (∀ p j, j < s.count p ↔
    ∃ q, q ∈ done ∧ s.remote_proc q = (p : Int) ∧ s.remotecount q = j) ∧
  (∀ q, q ∈ done → s.updates (s.remote_proc q).toNat (s.remotecount q) = s.ran q)

/-- The state in which the buffer of PE `p` holds the delivered values `l`:
`count = l.length` and `updates[i] = l[i]`. -/
def withBatch (s : Sys) (p : Nat) (l : List Nat) : Sys :=
  { s with
    count := Function.update s.count p l.length
    updates := Function.update s.updates p fun i => l.getD i 0 }

/-- Every buffer slot of every PE holds 0. -/
def BufferZero (c : Params) (s : Sys) : Prop :=
  ∀ p, p < c.numNodes → ∀ j, j < MAXTHREADS → s.updates p j = 0

/-- Every buffer slot at or beyond the counter of its PE holds 0. -/
def BufferClean (c : Params) (s : Sys) : Prop :=
  ∀ p, p < c.numNodes → ∀ j, s.count p ≤ j → j < MAXTHREADS → s.updates p j = 0

/-! ## Concrete configurations -/

/-- The scenario of the specification: 1024 slots on 4 PEs, 256 updates per PE, with the
header constants of HPCC and every PE starting at the first slot it owns. -/
def scenario : Params :=
  { POLY := POLY_HPCC, PERIOD := PERIOD_HPCC, logTableSize := 10, LocalTableSize := 256,
    logNumProcs := 2, numNodes := 4, ProcNumUpdates := 256,
    GlobalStartMyProc := fun p => 256 * p }

/-- A state in which every table slot holds its global address and everything else is zero. -/
def initialSys (c : Params) : Sys :=
  { ran := fun _ => 0, count := fun _ => 0, updates := fun _ _ => 0,
    HPCC_Table := fun p i => c.LocalTableSize * p + i,
    remote_proc := fun _ => 0, remotecount := fun _ => 0 }

/-- The order of reservations in which the PEs act by increasing PE number in every round. -/
def inOrder (c : Params) : Nat → List Nat := fun _ => List.range c.numNodes

/-- The same table and the same streams on `2^k` PEs. -/
def repartition (c : Params) (k : Nat) : Params :=
  { c with logNumProcs := (k : Int), numNodes := 2 ^ k,
           LocalTableSize := 2 ^ (c.logTableSize - k) }

/-- The scenario of the specification with `ProcNumUpdates = 2^31`, the number of updates of
a PE that owns `2^29` table words. -/
def largeRun : Params := { scenario with ProcNumUpdates := 2 ^ 31 }

/-- The scenario of the specification with `ProcNumUpdates = 2^32 + 3`. -/
def largerRun : Params := { scenario with ProcNumUpdates := 2 ^ 32 + 3 }

/-- A run on three PEs (not a power of two): 4 slots, 2 per PE, one update per PE, all
streams starting at offset 0. -/
def threeNodes : Params :=
  { POLY := POLY_HPCC, PERIOD := PERIOD_HPCC, logTableSize := 2, LocalTableSize := 2,
    logNumProcs := 1, numNodes := 3, ProcNumUpdates := 1,
    GlobalStartMyProc := fun _ => 0 }

/-- A table of `2^34` words on 4 PEs: every PE owns `2^32` words. -/
def hugeTable : Params :=
  { scenario with logTableSize := 34, LocalTableSize := 2 ^ 32 }

/-- A run on 512 PEs whose streams all start at offset 0: 4096 slots, 8 per PE, one update
per PE. -/
def crowded : Params :=
  { POLY := POLY_HPCC, PERIOD := PERIOD_HPCC, logTableSize := 12, LocalTableSize := 8,
    logNumProcs := 9, numNodes := 512, ProcNumUpdates := 1,
    GlobalStartMyProc := fun _ => 0 }

/-! ## The generator as multiplication by `X` modulo `X^64 + POLY` -/

open Polynomial in
/-- The polynomial over GF(2) whose coefficients are the low 64 bits of a word. -/
noncomputable def toPoly (a : Nat) : (ZMod 2)[X] :=
  ∑ j in Finset.range 64, monomial j (if a.testBit j then (1 : ZMod 2) else 0)

open Polynomial in
/-- The modulus of the recurrence, `X^64 + POLY`. -/
noncomputable def genPoly (POLY : Nat) : (ZMod 2)[X] := X ^ 64 + toPoly POLY

/-- The class of a word in the quotient ring of GF(2)[X] by `genPoly`. -/
noncomputable def phi (POLY a : Nat) : AdjoinRoot (genPoly POLY) :=
  AdjoinRoot.mk (genPoly POLY) (toPoly a)

/-! ## The jump-ahead `starts` -/

section Generator

open Polynomial

theorem coeff_toPoly (a k : Nat) :
    (toPoly a).coeff k = if k < 64 ∧ a.testBit k then 1 else 0 := by
  unfold toPoly
  rw [finset_sum_coeff]
  simp only [coeff_monomial]
  by_cases hk : k < 64
  · rw [Finset.sum_eq_single k]
    · simp [hk]
    · intro b _ hb; simp [hb]
    · intro h; exact absurd (Finset.mem_range.mpr hk) h
  · rw [Finset.sum_eq_zero]
    · simp [hk]
    · intro b hb
      have : b ≠ k := by
        have := Finset.mem_range.mp hb; omega
      simp [this]

theorem toPoly_xor (a b : Nat) : toPoly (a ^^^ b) = toPoly a + toPoly b := by
  ext k
  rw [coeff_add, coeff_toPoly, coeff_toPoly, coeff_toPoly, Nat.testBit_xor]
  by_cases hk : k < 64
  · cases a.testBit k <;> cases b.testBit k <;> simp [hk]; decide
  · simp [hk]

theorem toPoly_zero : toPoly 0 = 0 := by
  ext k; rw [coeff_toPoly]; simp

theorem testBit_shl_mod (a k : Nat) :
    ((a <<< 1) % 2 ^ 64).testBit k = (decide (k < 64) && (decide (1 ≤ k) && a.testBit (k - 1))) := by
  rw [Nat.testBit_mod_two_pow, Nat.testBit_shiftLeft]

theorem coeff_ite_X64 (b : Bool) (k : Nat) :
    (if b = true then (X : (ZMod 2)[X]) ^ 64 else 0).coeff k = if b = true ∧ k = 64 then 1 else 0 := by
  cases b <;> simp [coeff_X_pow]

theorem toPoly_shift (a : Nat) :
    toPoly ((a <<< 1) % 2 ^ 64) + (if a.testBit 63 then X ^ 64 else 0) = X * toPoly a := by
  ext k
  rw [coeff_add, coeff_toPoly, coeff_ite_X64, testBit_shl_mod]
  rcases k with _ | k
  · simp
  · rw [coeff_X_mul, coeff_toPoly]
    simp only [Nat.add_sub_cancel]
    by_cases h1 : k + 1 < 64
    · have h2 : k < 64 := by omega
      have h3 : k + 1 ≠ 64 := by omega
      simp [h1, h2, h3]
    · by_cases h2 : k = 63
      · subst h2
        simp
      · have h3 : ¬ k < 64 := by omega
        have h4 : k + 1 ≠ 64 := by omega
        simp [h1, h3, h4]

theorem degree_toPoly_lt (a : Nat) : (toPoly a).degree < ((64 : ℕ) : WithBot ℕ) := by
  rw [degree_lt_iff_coeff_zero]
  intro m hm
  rw [coeff_toPoly]
  have : ¬ m < 64 := by omega
  simp [this]

theorem genPoly_monic (POLY : Nat) : (genPoly POLY).Monic := by
  unfold genPoly
  exact monic_X_pow_add (degree_toPoly_lt POLY)

theorem genPoly_degree (POLY : Nat) : (genPoly POLY).degree = ((64 : ℕ) : WithBot ℕ) := by
  unfold genPoly
  rw [degree_add_eq_left_of_degree_lt, degree_X_pow]
  rw [degree_X_pow]; exact degree_toPoly_lt POLY

theorem two_eq_zero (POLY : Nat) : (2 : AdjoinRoot (genPoly POLY)) = 0 := by
  have h : (2 : ZMod 2) = 0 := by decide
  have := congrArg (AdjoinRoot.of (genPoly POLY)) h
  simpa using this

theorem add_self_R (POLY : Nat) (x : AdjoinRoot (genPoly POLY)) : x + x = 0 := by
  rw [← two_mul, two_eq_zero, zero_mul]

theorem phi_xor (POLY a b : Nat) : phi POLY (a ^^^ b) = phi POLY a + phi POLY b := by
  unfold phi; rw [toPoly_xor, map_add]

theorem phi_zero (POLY : Nat) : phi POLY 0 = 0 := by
  unfold phi; rw [toPoly_zero, map_zero]

theorem phi_one (POLY : Nat) : phi POLY 1 = 1 := by
  unfold phi
  have : toPoly 1 = 1 := by
    ext k; rw [coeff_toPoly, coeff_one]
    rcases k with _ | k
    · simp
    · have : Nat.testBit 1 (k+1) = false := by
        rw [Nat.testBit_succ]; simp
      simp [this]
  rw [this, map_one]

theorem mk_X64 (POLY : Nat) :
    AdjoinRoot.mk (genPoly POLY) (X ^ 64) = phi POLY POLY := by
  have h := AdjoinRoot.mk_self (f := genPoly POLY)
  unfold phi
  have h2 : AdjoinRoot.mk (genPoly POLY) (X ^ 64) + AdjoinRoot.mk (genPoly POLY) (toPoly POLY) = 0 := by
    rw [← map_add]; exact h
  have h3 := add_self_R POLY (AdjoinRoot.mk (genPoly POLY) (toPoly POLY))
  calc AdjoinRoot.mk (genPoly POLY) (X ^ 64)
      = AdjoinRoot.mk (genPoly POLY) (X ^ 64) + (AdjoinRoot.mk (genPoly POLY) (toPoly POLY) + AdjoinRoot.mk (genPoly POLY) (toPoly POLY)) := by rw [h3, add_zero]
    _ = AdjoinRoot.mk (genPoly POLY) (toPoly POLY) := by rw [← add_assoc, h2, zero_add]

theorem phi_advance (POLY a : Nat) :
    phi POLY (advance POLY a) = AdjoinRoot.root (genPoly POLY) * phi POLY a := by
  unfold advance
  rw [phi_xor]
  have h := congrArg (AdjoinRoot.mk (genPoly POLY)) (toPoly_shift a)
  rw [map_add, map_mul, AdjoinRoot.mk_X] at h
  have e : phi POLY (if a.testBit 63 then POLY else 0)
      = AdjoinRoot.mk (genPoly POLY) (if a.testBit 63 then X ^ 64 else 0) := by
    by_cases hb : a.testBit 63
    · simp only [hb, if_true]; exact (mk_X64 POLY).symm
    · simp only [hb]; simp [phi_zero]
  rw [e]; exact h

theorem phi_inj (POLY a b : Nat) (ha : a < 2 ^ 64) (hb : b < 2 ^ 64)
    (h : phi POLY a = phi POLY b) : a = b := by
  unfold phi at h
  rw [AdjoinRoot.mk_eq_mk] at h
  have hd : (toPoly a - toPoly b).degree < (genPoly POLY).degree := by
    rw [genPoly_degree]
    exact lt_of_le_of_lt (degree_sub_le _ _) (max_lt (degree_toPoly_lt a) (degree_toPoly_lt b))
  have hz := eq_zero_of_dvd_of_degree_lt h hd
  have hab : toPoly a = toPoly b := sub_eq_zero.mp hz
  apply Nat.eq_of_testBit_eq
  intro i
  by_cases hi : i < 64
  · have := congrArg (fun p => p.coeff i) hab
    simp only [coeff_toPoly, hi, true_and] at this
    cases h1 : a.testBit i <;> cases h2 : b.testBit i <;> simp_all
  · have h64 : 2 ^ 64 ≤ 2 ^ i := Nat.pow_le_pow_right (by norm_num) (by omega)
    rw [Nat.testBit_lt_two_pow (lt_of_lt_of_le ha h64), Nat.testBit_lt_two_pow (lt_of_lt_of_le hb h64)]

theorem advance_lt (POLY x : Nat) (hP : POLY < 2 ^ 64) : advance POLY x < 2 ^ 64 := by
  unfold advance
  apply Nat.xor_lt_two_pow
  · exact Nat.mod_lt _ (by norm_num)
  · split
    · exact hP
    · norm_num

theorem pw_succ (POLY k : Nat) : pw POLY (k + 1) = advance POLY (pw POLY k) := by
  unfold pw; rw [Function.iterate_succ_apply']

theorem pw_lt (POLY k : Nat) (hP : POLY < 2 ^ 64) : pw POLY k < 2 ^ 64 := by
  rcases k with _ | k
  · simp [pw]
  · rw [pw_succ]; exact advance_lt POLY _ hP

theorem phi_pw (POLY k : Nat) : phi POLY (pw POLY k) = AdjoinRoot.root (genPoly POLY) ^ k := by
  induction k with
  | zero => simp [pw, phi_one]
  | succ k ih => rw [pw_succ, phi_advance, ih, pow_succ, mul_comm]

theorem buildM2_getD (POLY : Nat) (k t j : Nat) (hj : j < k) :
    (buildM2 POLY k t).getD j 0 = (advance POLY)^[2 * j] t := by
  induction k generalizing t j with
  | zero => omega
  | succ k ih =>
    rcases j with _ | j
    · simp [buildM2]
    · simp only [buildM2, List.getD_cons_succ]
      rw [ih _ _ (by omega)]
      have : 2 * (j + 1) = 2 * j + 1 + 1 := by ring
      rw [this, Function.iterate_succ_apply, Function.iterate_succ_apply]

theorem buildM2_length (POLY k t : Nat) : (buildM2 POLY k t).length = k := by
  induction k generalizing t with
  | zero => rfl
  | succ k ih => simp [buildM2, ih]

theorem m2_getD (POLY j : Nat) (hj : j < 64) :
    (buildM2 POLY 64 1).getD j 0 = pw POLY (2 * j) :=
  buildM2_getD POLY 64 1 j hj

theorem bit_ne_zero_iff (x j : Nat) : ((x >>> j) &&& 1 ≠ 0) ↔ x.testBit j = true := by
  unfold Nat.testBit
  rw [Nat.and_comm]
  simp

/-- The inner loop of `starts` over the first `n` bit positions. -/
theorem square_fold_phi (POLY : Nat) (m2 : List Nat) (ran n : Nat) :
    phi POLY ((List.range n).foldl
        (fun temp j => if (ran >>> j) &&& 1 ≠ 0 then temp ^^^ m2.getD j 0 else temp) 0)
      = ∑ j in Finset.range n, if ran.testBit j then phi POLY (m2.getD j 0) else 0 := by
  induction n with
  | zero => simp [phi_zero]
  | succ n ih =>
    rw [List.range_succ, List.foldl_append, Finset.sum_range_succ, ← ih]
    simp only [List.foldl_cons, List.foldl_nil]
    by_cases hb : ran.testBit n = true
    · rw [if_pos ((bit_ne_zero_iff ran n).mpr hb), if_pos hb, phi_xor]
    · rw [if_neg (fun h => hb ((bit_ne_zero_iff ran n).mp h)), if_neg hb, add_zero]

theorem square_fold_lt (m2 : List Nat) (hm : ∀ j, m2.getD j 0 < 2 ^ 64) (ran n : Nat) :
    (List.range n).foldl
        (fun temp j => if (ran >>> j) &&& 1 ≠ 0 then temp ^^^ m2.getD j 0 else temp) 0 < 2 ^ 64 := by
  induction n with
  | zero => simp
  | succ n ih =>
    rw [List.range_succ, List.foldl_append]
    simp only [List.foldl_cons, List.foldl_nil]
    split
    · exact Nat.xor_lt_two_pow ih (hm n)
    · exact ih

theorem phi_eq_sum (POLY a : Nat) :
    phi POLY a = ∑ j in Finset.range 64,
      if a.testBit j then AdjoinRoot.root (genPoly POLY) ^ j else 0 := by
  unfold phi toPoly
  rw [map_sum]
  apply Finset.sum_congr rfl
  intro j _
  by_cases hb : a.testBit j = true
  · simp [hb, ← C_mul_X_pow_eq_monomial]
  · simp [hb]

theorem sum_sq_R (POLY : Nat) (n : Nat) (f : Nat → AdjoinRoot (genPoly POLY)) :
    (∑ j in Finset.range n, f j) ^ 2 = ∑ j in Finset.range n, (f j) ^ 2 := by
  induction n with
  | zero => simp
  | succ n ih =>
    rw [Finset.sum_range_succ, Finset.sum_range_succ, add_sq, ih]
    have : 2 * (∑ x in Finset.range n, f x) * f n = 0 := by
      rw [two_eq_zero, zero_mul, zero_mul]
    rw [this, add_zero]

theorem phi_square (POLY ran : Nat) :
    phi POLY (square (buildM2 POLY 64 1) ran) = (phi POLY ran) ^ 2 := by
  unfold square
  rw [square_fold_phi, phi_eq_sum POLY ran, sum_sq_R]
  apply Finset.sum_congr rfl
  intro j hj
  have hj : j < 64 := Finset.mem_range.mp hj
  by_cases hb : ran.testBit j = true
  · simp only [hb, if_true]
    rw [m2_getD POLY j hj, phi_pw, ← pow_mul, mul_comm]
  · simp [hb]

theorem square_pw (POLY k : Nat) (hP : POLY < 2 ^ 64) :
    square (buildM2 POLY 64 1) (pw POLY k) = pw POLY (2 * k) := by
  apply phi_inj POLY
  · unfold square
    apply square_fold_lt
    intro j
    by_cases hj : j < 64
    · rw [m2_getD POLY j hj]; exact pw_lt POLY _ hP
    · rw [List.getD_eq_default]
      · norm_num
      · have : (buildM2 POLY 64 1).length = 64 := buildM2_length POLY 64 1
        omega
  · exact pw_lt POLY _ hP
  · rw [phi_square, phi_pw, phi_pw, ← pow_mul, mul_comm]

theorem reducePeriod_le (PERIOD fuel n : Nat) (h : n ≤ PERIOD) :
    reducePeriod PERIOD fuel n = n := by
  cases fuel with
  | zero => rfl
  | succ f => simp [reducePeriod, Nat.not_lt.mpr h]

theorem findTop_spec (n k : Nat) (hn : 0 < n) (hk : n < 2 ^ k) :
    ∃ i : Nat, findTop n k = (i : Int) ∧ 2 ^ i ≤ n ∧ n < 2 ^ (i + 1) := by
  induction k with
  | zero => simp at hk; omega
  | succ k ih =>
    unfold findTop
    by_cases hb : n.testBit k = true
    · rw [if_pos ((bit_ne_zero_iff n k).mpr hb)]
      refine ⟨k, rfl, ?_, hk⟩
      exact Nat.testBit_implies_ge hb
    · rw [if_neg (fun h => hb ((bit_ne_zero_iff n k).mp h))]
      apply ih
      by_contra hlt
      have hge : 2 ^ k ≤ n := Nat.not_lt.mp hlt
      apply hb
      rw [Nat.testBit_to_div_mod]
      have : n / 2 ^ k = 1 := by
        apply Nat.div_eq_of_lt_le
        · simpa using hge
        · rw [Nat.pow_succ] at hk; omega
      simp [this]

theorem shiftRight_step (n i : Nat) :
    n >>> i = 2 * (n >>> (i + 1)) + (if n.testBit i then 1 else 0) := by
  have h1 : n >>> (i + 1) = (n >>> i) / 2 := by
    rw [Nat.shiftRight_succ]
  have h2 : n.testBit i = decide ((n >>> i) % 2 = 1) := by
    rw [Nat.testBit_to_div_mod, Nat.shiftRight_eq_div_pow]
  rw [h1, h2]
  by_cases h : (n >>> i) % 2 = 1
  · simp [h]; omega
  · simp [h]; omega

theorem startsLoop_pw (POLY n : Nat) (hP : POLY < 2 ^ 64) (i : Nat) :
    startsLoop POLY n (buildM2 POLY 64 1) i (pw POLY (n >>> i)) = pw POLY n := by
  induction i with
  | zero => simp [startsLoop]
  | succ i ih =>
    unfold startsLoop
    simp only
    rw [square_pw POLY _ hP]
    by_cases hb : n.testBit i = true
    · rw [if_pos ((bit_ne_zero_iff n i).mpr hb), ← pw_succ]
      have := shiftRight_step n i
      rw [if_pos hb] at this
      rw [← this]; exact ih
    · rw [if_neg (fun h => hb ((bit_ne_zero_iff n i).mp h))]
      have := shiftRight_step n i
      rw [if_neg hb, add_zero] at this
      rw [← this]; exact ih

/-- Below the reduction threshold `starts` is the plain n-fold iteration of the generator step. -/
theorem starts_eq_pw (POLY PERIOD n : Nat) (hP : POLY < 2 ^ 64) (hPer : PERIOD < 2 ^ 63)
    (hn : n ≤ PERIOD) : starts POLY PERIOD n = pw POLY n := by
  unfold starts
  simp only [reducePeriod_le PERIOD n n hn]
  by_cases h0 : n = 0
  · subst h0; simp [pw]
  · rw [if_neg h0]
    obtain ⟨i, hi, hlo, hhi⟩ := findTop_spec n 63 (Nat.pos_of_ne_zero h0) (by omega)
    rw [hi, Int.toNat_natCast]
    have h1 : n >>> i = 1 := by
      rw [Nat.shiftRight_eq_div_pow]
      apply Nat.div_eq_of_lt_le
      · simpa using hlo
      · rw [Nat.pow_succ] at hhi; omega
    have h2 : pw POLY (n >>> i) = 2 := by
      rw [h1, pw_succ]
      have hb : Nat.testBit 1 63 = false := by decide
      simp [pw, advance, hb]
    rw [← h2]
    exact startsLoop_pw POLY n hP i

end Generator

/-! ## The locals of the update routine within the range of `int` -/

section Locals

theorem toInt32_of_range (x : Int) (h0 : 0 ≤ x) (h1 : x < 2 ^ 31) : toInt32 x = x := by
  unfold toInt32
  omega

theorem toInt32_toU64 (x : Int) : toInt32 (toU64 x) = toInt32 x := by
  unfold toInt32 toU64
  have h : (0 : Int) ≤ x % 2 ^ 64 := Int.emod_nonneg _ (by norm_num)
  rw [Int.toNat_of_nonneg h]
  omega

theorem toU64_of_range (x : Int) (h0 : 0 ≤ x) (h1 : x < 2 ^ 64) : (toU64 x : Int) = x := by
  unfold toU64
  have h : (0 : Int) ≤ x % 2 ^ 64 := Int.emod_nonneg _ (by norm_num)
  rw [Int.toNat_of_nonneg h]
  exact Int.emod_eq_of_lt h0 h1

theorem toU64_pred (n : Nat) (h0 : 1 ≤ n) (h1 : n ≤ 2 ^ 64) : toU64 ((n : Int) - 1) = n - 1 := by
  have h := toU64_of_range ((n : Int) - 1) (by omega) (by omega)
  omega

theorem testBit_high_mask (k j : Nat) (hk : k ≤ 64) :
    (2 ^ 64 - 2 ^ (64 - k)).testBit j = (decide (j < 64) && !decide (j < 64 - k)) := by
  have hpos : 0 < 2 ^ (64 - k) := Nat.pos_pow_of_pos _ (by norm_num)
  have hlt : 2 ^ (64 - k) - 1 < 2 ^ 64 := by
    have : 2 ^ (64 - k) ≤ 2 ^ 64 := Nat.pow_le_pow_right (by norm_num) (by omega)
    omega
  have h := Nat.testBit_two_pow_sub_succ hlt j
  have e : 2 ^ (64 - k) - 1 + 1 = 2 ^ (64 - k) := by omega
  rw [e] at h
  rw [h, Nat.testBit_two_pow_sub_one]

theorem sar64_and_mask (x k m : Nat) (hk : k ≤ 64) (hm : m < 2 ^ (64 - k)) :
    sar64 x k &&& m = (x >>> k) &&& m := by
  unfold sar64
  split
  · apply Nat.eq_of_testBit_eq
    intro j
    rw [Nat.testBit_and, Nat.testBit_and, Nat.testBit_or, testBit_high_mask k j hk]
    by_cases hj : j < 64 - k
    · simp [hj]
    · have : m.testBit j = false := by
        apply Nat.testBit_lt_two_pow
        exact lt_of_lt_of_le hm (Nat.pow_le_pow_right (by norm_num) (by omega))
      simp [this]
  · rfl

end Locals

section LocalsInRange

theorem remote_proc_eq (c : Params) (v : Nat) (h1 : 1 ≤ c.numNodes) (h2 : c.numNodes < 2 ^ 31) :
    remote_proc c v = ((sar64 v (logTableLocal c).toNat &&& (c.numNodes - 1) : Nat) : Int) := by
  unfold remote_proc
  rw [toU64_pred c.numNodes h1 (by omega)]
  apply toInt32_of_range
  · exact Int.natCast_nonneg _
  · have : sar64 v (logTableLocal c).toNat &&& (c.numNodes - 1) ≤ c.numNodes - 1 :=
      Nat.and_le_right
    omega

theorem remote_proc_range (c : Params) (v : Nat) (h1 : 1 ≤ c.numNodes)
    (h2 : c.numNodes < 2 ^ 31) :
    0 ≤ remote_proc c v ∧ remote_proc c v < (c.numNodes : Int) := by
  rw [remote_proc_eq c v h1 h2]
  have : sar64 v (logTableLocal c).toNat &&& (c.numNodes - 1) ≤ c.numNodes - 1 :=
    Nat.and_le_right
  omega

theorem nlocalm1_eq (c : Params) (h1 : 1 ≤ c.LocalTableSize) (h2 : c.LocalTableSize ≤ 2 ^ 31) :
    nlocalm1 c = ((c.LocalTableSize - 1 : Nat) : Int) := by
  unfold nlocalm1
  rw [toU64_pred c.LocalTableSize h1 (by omega)]
  apply toInt32_of_range <;> omega

theorem index_eq (c : Params) (v : Nat) (h1 : 1 ≤ c.LocalTableSize)
    (h2 : c.LocalTableSize ≤ 2 ^ 31) :
    index c v = ((v &&& (c.LocalTableSize - 1) : Nat) : Int) := by
  unfold index
  rw [nlocalm1_eq c h1 h2]
  have e : toU64 ((c.LocalTableSize - 1 : Nat) : Int) = c.LocalTableSize - 1 := by
    have := toU64_of_range ((c.LocalTableSize - 1 : Nat) : Int) (by omega) (by omega)
    omega
  rw [e]
  apply toInt32_of_range
  · exact Int.natCast_nonneg _
  · have : v &&& (c.LocalTableSize - 1) ≤ c.LocalTableSize - 1 := Nat.and_le_right
    omega

theorem index_range (c : Params) (v : Nat) (h1 : 1 ≤ c.LocalTableSize)
    (h2 : c.LocalTableSize ≤ 2 ^ 31) :
    0 ≤ index c v ∧ index c v < (c.LocalTableSize : Int) := by
  rw [index_eq c v h1 h2]
  have : v &&& (c.LocalTableSize - 1) ≤ c.LocalTableSize - 1 := Nat.and_le_right
  omega

theorem logTableLocal_eq (c : Params) (k : Nat) (hk : c.logNumProcs = (k : Int))
    (hle : k ≤ c.logTableSize) (hs : c.logTableSize - k ≤ 63) :
    logTableLocal c = ((c.logTableSize - k : Nat) : Int) := by
  unfold logTableLocal
  rw [toInt32_toU64, hk]
  have : (c.logTableSize : Int) - (k : Int) = ((c.logTableSize - k : Nat) : Int) := by omega
  rw [this]
  apply toInt32_of_range <;> omega

/-- In a power-of-two configuration the owner is the bit field of the value above the
local index. -/
theorem remote_proc_pow2 (c : Params) (k v : Nat) (hk : c.logNumProcs = (k : Int))
    (hn : c.numNodes = 2 ^ k) (hle : k ≤ c.logTableSize) (hk30 : k ≤ 30)
    (hs : c.logTableSize - k ≤ 31) :
    remote_proc c v
      = (((v >>> (c.logTableSize - k)) &&& (c.numNodes - 1) : Nat) : Int) := by
  have hpos : 1 ≤ c.numNodes := by rw [hn]; exact Nat.one_le_two_pow
  have hlt : c.numNodes < 2 ^ 31 := by
    rw [hn]; exact Nat.pow_lt_pow_right (by norm_num) (by omega)
  rw [remote_proc_eq c v hpos hlt, logTableLocal_eq c k hk hle (by omega), Int.toNat_natCast]
  rw [sar64_and_mask _ _ _ (by omega)]
  rw [hn]
  have : 2 ^ k ≤ 2 ^ (64 - (c.logTableSize - k)) :=
    Nat.pow_le_pow_right (by norm_num) (by omega)
  have : 0 < 2 ^ k := Nat.pos_pow_of_pos _ (by norm_num)
  omega

end LocalsInRange

/-! ## One route step -/

section Route

/-- What a successful route step of PE `q` does. -/
theorem route_eq_some (c : Params) (s s' : Sys) (q : Nat) (h : route c s q = some s') :
    (0 ≤ logTableLocal c ∧ logTableLocal c < 64) ∧
    (0 ≤ remote_proc c (advance c.POLY (s.ran q)) ∧
      remote_proc c (advance c.POLY (s.ran q)) < (c.numNodes : Int)) ∧
    s.count (remote_proc c (advance c.POLY (s.ran q))).toNat < MAXTHREADS ∧
    s' = { s with
      ran := Function.update s.ran q (advance c.POLY (s.ran q))
      remote_proc := Function.update s.remote_proc q (remote_proc c (advance c.POLY (s.ran q)))
      remotecount := Function.update s.remotecount q
        (s.count (remote_proc c (advance c.POLY (s.ran q))).toNat)
      count := Function.update s.count (remote_proc c (advance c.POLY (s.ran q))).toNat
        (s.count (remote_proc c (advance c.POLY (s.ran q))).toNat + 1)
      updates := Function.update s.updates (remote_proc c (advance c.POLY (s.ran q))).toNat
        (Function.update (s.updates (remote_proc c (advance c.POLY (s.ran q))).toNat)
          (s.count (remote_proc c (advance c.POLY (s.ran q))).toNat)
          (advance c.POLY (s.ran q))) } := by
  unfold route reserveAndPut at h
  simp only [Function.update_same] at h
  by_cases h1 : 0 ≤ logTableLocal c ∧ logTableLocal c < 64
  · rw [if_pos h1] at h
    by_cases h2 : 0 ≤ remote_proc c (advance c.POLY (s.ran q)) ∧
        remote_proc c (advance c.POLY (s.ran q)) < (c.numNodes : Int)
    · rw [if_pos h2] at h
      by_cases h3 : s.count (remote_proc c (advance c.POLY (s.ran q))).toNat < MAXTHREADS
      · rw [if_pos h3] at h
        exact ⟨h1, h2, h3, (Option.some.inj h).symm⟩
      · rw [if_neg h3] at h; exact absurd h (by simp)
    · rw [if_neg h2] at h; exact absurd h (by simp)
  · rw [if_neg h1] at h; exact absurd h (by simp)

/-- A route step succeeds when the shift count is valid, the owner exists and the owner's
counter is below the capacity of the buffer. -/
theorem route_isSome (c : Params) (s : Sys) (q : Nat)
    (h1 : 0 ≤ logTableLocal c ∧ logTableLocal c < 64)
    (h2 : 0 ≤ remote_proc c (advance c.POLY (s.ran q)) ∧
      remote_proc c (advance c.POLY (s.ran q)) < (c.numNodes : Int))
    (h3 : s.count (remote_proc c (advance c.POLY (s.ran q))).toNat < MAXTHREADS) :
    ∃ s', route c s q = some s' := by
  unfold route reserveAndPut
  simp only
  rw [if_pos h1, if_pos h2]
  simp only [Function.update_same]
  rw [if_pos h3]
  exact ⟨_, rfl⟩

theorem route_table (c : Params) (s s' : Sys) (q : Nat) (h : route c s q = some s') :
    s'.HPCC_Table = s.HPCC_Table := by
  obtain ⟨_, _, _, rfl⟩ := route_eq_some c s s' q h
  rfl

theorem route_ran (c : Params) (s s' : Sys) (q : Nat) (h : route c s q = some s') :
    s'.ran = Function.update s.ran q (advance c.POLY (s.ran q)) := by
  obtain ⟨_, _, _, rfl⟩ := route_eq_some c s s' q h
  rfl

theorem route_count_le (c : Params) (s s' : Sys) (q m : Nat) (h : route c s q = some s')
    (hm : ∀ p, s.count p ≤ m) : ∀ p, s'.count p ≤ m + 1 := by
  obtain ⟨_, _, _, rfl⟩ := route_eq_some c s s' q h
  intro p
  simp only
  by_cases hp : p = (remote_proc c (advance c.POLY (s.ran q))).toNat
  · rw [hp, Function.update_same]
    exact Nat.succ_le_succ (hm _)
  · rw [Function.update_noteq hp]
    exact Nat.le_succ_of_le (hm p)

theorem range_map_update (f : Nat → Nat) (n v : Nat) :
    (List.range n).map (Function.update f n v) = (List.range n).map f := by
  apply List.map_congr_left
  intro j hj
  have : j ≠ n := by
    have := List.mem_range.mp hj; omega
  rw [Function.update_noteq this]

/-- A route step appends the routed value to the pending values of its owner and leaves
the pending values of every other PE as they are. -/
theorem pending_route (c : Params) (s s' : Sys) (q p : Nat) (h : route c s q = some s') :
    pending s' p = pending s p ++
      (if remote_proc c (advance c.POLY (s.ran q)) = (p : Int)
        then [advance c.POLY (s.ran q)] else []) := by
  obtain ⟨_, h2, _, rfl⟩ := route_eq_some c s s' q h
  unfold pending
  simp only
  by_cases hp : remote_proc c (advance c.POLY (s.ran q)) = (p : Int)
  · have ht : (remote_proc c (advance c.POLY (s.ran q))).toNat = p := by
      rw [hp]; exact Int.toNat_natCast p
    rw [if_pos hp, ht, Function.update_same, Function.update_same, List.range_succ,
      List.map_append, range_map_update]
    simp
  · have ht : p ≠ (remote_proc c (advance c.POLY (s.ran q))).toNat := by
      intro e
      apply hp
      rw [e, Int.toNat_of_nonneg h2.1]
    rw [if_neg hp, Function.update_noteq ht, Function.update_noteq ht, List.append_nil]

end Route

/-! ## The route phase of a round -/

section RoutePhase

theorem foldlM_cons_some {α β : Type} (f : β → α → Option β) (a : α) (l : List α) (b r : β) :
    (a :: l).foldlM f b = some r ↔ ∃ b', f b a = some b' ∧ l.foldlM f b' = some r := by
  rw [List.foldlM_cons]
  exact Option.bind_eq_some

theorem routePhase_nil (c : Params) (s : Sys) : routePhase c [] s = some s := rfl

theorem routePhase_cons (c : Params) (q : Nat) (l : List Nat) (s r : Sys) :
    routePhase c (q :: l) s = some r ↔
      ∃ s1, route c s q = some s1 ∧ routePhase c l s1 = some r :=
  foldlM_cons_some (route c) q l s r

/-- The route phase of a schedule without repetitions: tables are untouched, every scheduled
PE has stepped its generator once, and the values are appended to the pending values of
their owners in schedule order. -/
theorem routePhase_spec (c : Params) (l : List Nat) (s s' : Sys)
    (h : routePhase c l s = some s') (hl : l.Nodup) :
    s'.HPCC_Table = s.HPCC_Table ∧
    (∀ q, s'.ran q = if q ∈ l then advance c.POLY (s.ran q) else s.ran q) ∧
    (∀ p, pending s' p = pending s p ++
      (l.map fun q => advance c.POLY (s.ran q)).filter
        (fun v => decide (remote_proc c v = (p : Int)))) := by
  induction l generalizing s with
  | nil =>
    rw [routePhase_nil] at h
    cases h
    simp
  | cons q l ih =>
    obtain ⟨s1, hq, hrest⟩ := (routePhase_cons c q l s s').mp h
    have hnd := List.nodup_cons.mp hl
    obtain ⟨ht, hr, hp⟩ := ih s1 hrest hnd.2
    have hran1 := route_ran c s s1 q hq
    have hmap : (l.map fun q' => advance c.POLY (s1.ran q'))
        = l.map fun q' => advance c.POLY (s.ran q') := by
      apply List.map_congr_left
      intro q' hq'
      have : q' ≠ q := fun e => hnd.1 (e ▸ hq')
      rw [hran1, Function.update_noteq this]
    refine ⟨ht.trans (route_table c s s1 q hq), ?_, ?_⟩
    · intro q'
      rw [hr q', hran1]
      by_cases e : q' = q
      · subst e
        simp [hnd.1]
      · simp [e, Function.update_noteq e]
    · intro p
      rw [hp p, pending_route c s s1 q p hq, hmap, List.map_cons, List.filter_cons,
        List.append_assoc]
      by_cases e : remote_proc c (advance c.POLY (s.ran q)) = (p : Int)
      · simp [e]
      · simp [e]

/-- The route phase succeeds while the counters stay below the capacity of the buffer. -/
theorem routePhase_isSome (c : Params) (l : List Nat) (s : Sys) (m : Nat)
    (h1 : 0 ≤ logTableLocal c ∧ logTableLocal c < 64)
    (h2 : 1 ≤ c.numNodes) (h3 : c.numNodes < 2 ^ 31)
    (hm : ∀ p, s.count p ≤ m) (hl : m + l.length ≤ MAXTHREADS) :
    ∃ s', routePhase c l s = some s' ∧ ∀ p, s'.count p ≤ m + l.length := by
  induction l generalizing s m with
  | nil => exact ⟨s, rfl, by simpa using hm⟩
  | cons q l ih =>
    rw [List.length_cons] at hl
    obtain ⟨s1, hs1⟩ := route_isSome c s q h1
      (remote_proc_range c _ h2 h3)
      (lt_of_le_of_lt (hm _) (by omega))
    have hm1 := route_count_le c s s1 q m hs1 hm
    obtain ⟨s', hs', hc⟩ := ih s1 (m + 1) hm1 (by omega)
    refine ⟨s', (routePhase_cons c q l s s').mpr ⟨s1, hs1, hs'⟩, ?_⟩
    intro p
    have := hc p
    rw [List.length_cons]
    omega

end RoutePhase

/-! ## XOR of a list -/

section XorList

theorem xorList_nil : xorList [] = 0 := rfl

theorem xorList_cons (v : Nat) (l : List Nat) : xorList (v :: l) = v ^^^ xorList l := rfl

theorem xorList_append (l1 l2 : List Nat) :
    xorList (l1 ++ l2) = xorList l1 ^^^ xorList l2 := by
  induction l1 with
  | nil => simp [xorList_nil]
  | cons v l ih => rw [List.cons_append, xorList_cons, xorList_cons, ih, Nat.xor_assoc]

theorem xorList_perm (l1 l2 : List Nat) (h : l1.Perm l2) : xorList l1 = xorList l2 := by
  induction h with
  | nil => rfl
  | cons x _ ih => rw [xorList_cons, xorList_cons, ih]
  | swap x y l =>
    rw [xorList_cons, xorList_cons, xorList_cons, xorList_cons, ← Nat.xor_assoc,
      ← Nat.xor_assoc, Nat.xor_comm y x]
  | trans _ _ ih1 ih2 => exact ih1.trans ih2

theorem xorList_lt (l : List Nat) (h : ∀ v ∈ l, v < 2 ^ 64) : xorList l < 2 ^ 64 := by
  induction l with
  | nil => rw [xorList_nil]; norm_num
  | cons v l ih =>
    rw [xorList_cons]
    exact Nat.xor_lt_two_pow (h v (List.mem_cons_self v l))
      (ih fun w hw => h w (List.mem_cons_of_mem v hw))

end XorList

/-! ## The apply loop of one PE -/

section Apply

/-- What one successful iteration of the apply loop of PE `p` does. -/
theorem applyOne_eq_some (c : Params) (p : Nat) (s s' : Sys) (i : Nat)
    (h : applyOne c p s i = some s') :
    i < MAXTHREADS ∧
    (0 ≤ index c (s.updates p i) ∧ index c (s.updates p i) < (c.LocalTableSize : Int)) ∧
    s' = { s with
      HPCC_Table := Function.update s.HPCC_Table p
        (Function.update (s.HPCC_Table p) (index c (s.updates p i)).toNat
          (s.HPCC_Table p (index c (s.updates p i)).toNat ^^^ s.updates p i))
      updates := Function.update s.updates p (Function.update (s.updates p) i 0) } := by
  unfold applyOne tableWords at h
  simp only at h
  by_cases h1 : i < MAXTHREADS
  · rw [if_pos h1] at h
    by_cases h2 : 0 ≤ index c (s.updates p i) ∧
        index c (s.updates p i) < (c.LocalTableSize : Int)
    · rw [if_pos h2] at h
      exact ⟨h1, h2, (Option.some.inj h).symm⟩
    · rw [if_neg h2] at h; exact absurd h (by simp)
  · rw [if_neg h1] at h; exact absurd h (by simp)

theorem applyOne_isSome (c : Params) (p : Nat) (s : Sys) (i : Nat) (h1 : i < MAXTHREADS)
    (h2 : 0 ≤ index c (s.updates p i) ∧ index c (s.updates p i) < (c.LocalTableSize : Int)) :
    ∃ s', applyOne c p s i = some s' := by
  unfold applyOne tableWords
  simp only
  rw [if_pos h1, if_pos h2]
  exact ⟨_, rfl⟩

/-- The table of PE `p` after one iteration, slot by slot. -/
theorem applyOne_table (c : Params) (p : Nat) (s s' : Sys) (i j : Nat)
    (h : applyOne c p s i = some s') :
    s'.HPCC_Table p j = s.HPCC_Table p j ^^^
      (if index c (s.updates p i) = (j : Int) then s.updates p i else 0) := by
  obtain ⟨_, h2, rfl⟩ := applyOne_eq_some c p s s' i h
  simp only
  rw [Function.update_same]
  by_cases hj : index c (s.updates p i) = (j : Int)
  · have : (index c (s.updates p i)).toNat = j := by rw [hj]; exact Int.toNat_natCast j
    rw [if_pos hj, this, Function.update_same]
  · have : j ≠ (index c (s.updates p i)).toNat := by
      intro e; apply hj; rw [e, Int.toNat_of_nonneg h2.1]
    rw [if_neg hj, Function.update_noteq this, Nat.xor_zero]

theorem applyOne_frame (c : Params) (p : Nat) (s s' : Sys) (i : Nat)
    (h : applyOne c p s i = some s') :
    (∀ p', p' ≠ p → s'.HPCC_Table p' = s.HPCC_Table p') ∧
    s'.ran = s.ran ∧ s'.count = s.count ∧
    s'.remote_proc = s.remote_proc ∧ s'.remotecount = s.remotecount ∧
    (∀ p', p' ≠ p → s'.updates p' = s.updates p') ∧
    (∀ j, s'.updates p j = if j = i then 0 else s.updates p j) := by
  obtain ⟨_, _, rfl⟩ := applyOne_eq_some c p s s' i h
  refine ⟨?_, rfl, rfl, rfl, rfl, ?_, ?_⟩
  · intro p' hp; simp only; rw [Function.update_noteq hp]
  · intro p' hp; simp only; rw [Function.update_noteq hp]
  · intro j
    simp only
    rw [Function.update_same]
    by_cases e : j = i
    · rw [if_pos e, e, Function.update_same]
    · rw [if_neg e, Function.update_noteq e]

/-- The apply loop over a list of distinct buffer positions. -/
theorem applyList_spec (c : Params) (p : Nat) (l : List Nat) (s s' : Sys)
    (h : l.foldlM (applyOne c p) s = some s') (hl : l.Nodup) :
    (∀ j, s'.HPCC_Table p j = s.HPCC_Table p j ^^^
      xorList ((l.map (s.updates p)).filter fun v => decide (index c v = (j : Int)))) ∧
    (∀ p', p' ≠ p → s'.HPCC_Table p' = s.HPCC_Table p') ∧
    s'.ran = s.ran ∧ s'.count = s.count ∧
    s'.remote_proc = s.remote_proc ∧ s'.remotecount = s.remotecount ∧
    (∀ p', p' ≠ p → s'.updates p' = s.updates p') ∧
    (∀ j, s'.updates p j = if j ∈ l then 0 else s.updates p j) := by
  induction l generalizing s with
  | nil =>
    rw [List.foldlM_nil] at h
    cases h
    simp [xorList_nil]
  | cons i l ih =>
    obtain ⟨s1, hi, hrest⟩ := (foldlM_cons_some (applyOne c p) i l s s').mp h
    have hnd := List.nodup_cons.mp hl
    obtain ⟨ht, hto, hr, hc, hrp, hrc, huo, hu⟩ := ih s1 hrest hnd.2
    obtain ⟨fto, fr, fc, frp, frc, fuo, fu⟩ := applyOne_frame c p s s1 i hi
    have hmap : l.map (s1.updates p) = l.map (s.updates p) := by
      apply List.map_congr_left
      intro j hj
      have : j ≠ i := fun e => hnd.1 (e ▸ hj)
      rw [fu j, if_neg this]
    refine ⟨?_, ?_, hr.trans fr, hc.trans fc, hrp.trans frp, hrc.trans frc, ?_, ?_⟩
    · intro j
      rw [ht j, applyOne_table c p s s1 i j hi, hmap, List.map_cons, List.filter_cons]
      by_cases e : index c (s.updates p i) = (j : Int)
      · simp [e, xorList_cons, Nat.xor_assoc]
      · simp [e]
    · intro p' hp; rw [hto p' hp, fto p' hp]
    · intro p' hp; rw [huo p' hp, fuo p' hp]
    · intro j
      rw [hu j, fu j]
      by_cases e : j = i
      · simp [e]
      · simp [e]

theorem applyList_isSome (c : Params) (p : Nat) (l : List Nat) (s : Sys)
    (h1 : 1 ≤ c.LocalTableSize) (h2 : c.LocalTableSize ≤ 2 ^ 31)
    (hl : ∀ i ∈ l, i < MAXTHREADS) :
    ∃ s', l.foldlM (applyOne c p) s = some s' := by
  induction l generalizing s with
  | nil => exact ⟨s, rfl⟩
  | cons i l ih =>
    obtain ⟨s1, hs1⟩ := applyOne_isSome c p s i (hl i (List.mem_cons_self i l))
      (index_range c _ h1 h2)
    obtain ⟨s', hs'⟩ := ih s1 fun j hj => hl j (List.mem_cons_of_mem i hj)
    exact ⟨s', (foldlM_cons_some (applyOne c p) i l s s').mpr ⟨s1, hs1, hs'⟩⟩

/-- The apply loop of PE `p`: every pending value is XORed into the slot its index selects,
the drained buffer positions are cleared, nothing else changes. -/
theorem applyUpdates_spec (c : Params) (p : Nat) (s s' : Sys)
    (h : applyUpdates c s p = some s') :
    (∀ j, s'.HPCC_Table p j = s.HPCC_Table p j ^^^
      xorList ((pending s p).filter fun v => decide (index c v = (j : Int)))) ∧
    (∀ p', p' ≠ p → s'.HPCC_Table p' = s.HPCC_Table p') ∧
    s'.ran = s.ran ∧ s'.count = s.count ∧
    s'.remote_proc = s.remote_proc ∧ s'.remotecount = s.remotecount ∧
    (∀ p', p' ≠ p → s'.updates p' = s.updates p') ∧
    (∀ j, s'.updates p j = if j < s.count p then 0 else s.updates p j) := by
  unfold applyUpdates at h
  have := applyList_spec c p (List.range (s.count p)) s s' h (List.nodup_range _)
  simpa only [List.mem_range, pending] using this

theorem applyUpdates_isSome (c : Params) (p : Nat) (s : Sys)
    (h1 : 1 ≤ c.LocalTableSize) (h2 : c.LocalTableSize ≤ 2 ^ 31)
    (hc : s.count p ≤ MAXTHREADS) :
    ∃ s', applyUpdates c s p = some s' := by
  unfold applyUpdates
  apply applyList_isSome c p _ s h1 h2
  intro i hi
  have := List.mem_range.mp hi
  omega

end Apply

/-! ## The apply phase, a round, and a run -/

section Rounds

theorem applyPhase_list_spec (c : Params) (ps : List Nat) (s s' : Sys)
    (h : ps.foldlM (applyUpdates c) s = some s') (hps : ps.Nodup) :
    (∀ p, p ∈ ps → ∀ j, s'.HPCC_Table p j = s.HPCC_Table p j ^^^
      xorList ((pending s p).filter fun v => decide (index c v = (j : Int)))) ∧
    (∀ p, p ∉ ps → s'.HPCC_Table p = s.HPCC_Table p) ∧
    s'.ran = s.ran ∧ s'.count = s.count ∧
    s'.remote_proc = s.remote_proc ∧ s'.remotecount = s.remotecount ∧
    (∀ p, p ∉ ps → s'.updates p = s.updates p) ∧
    (∀ p, p ∈ ps → ∀ j, s'.updates p j = if j < s.count p then 0 else s.updates p j) := by
  induction ps generalizing s with
  | nil =>
    rw [List.foldlM_nil] at h
    cases h
    simp
  | cons p0 ps ih =>
    obtain ⟨s1, h0, hrest⟩ := (foldlM_cons_some (applyUpdates c) p0 ps s s').mp h
    have hnd := List.nodup_cons.mp hps
    obtain ⟨ht, hto, hr, hc, hrp, hrc, huo, hu⟩ := ih s1 hrest hnd.2
    obtain ⟨at0, ato, ar, ac, arp, arc, auo, au⟩ := applyUpdates_spec c p0 s s1 h0
    have hpend : ∀ p, p ≠ p0 → pending s1 p = pending s p := by
      intro p hp
      unfold pending
      rw [ac, auo p hp]
    refine ⟨?_, ?_, hr.trans ar, hc.trans ac, hrp.trans arp, hrc.trans arc, ?_, ?_⟩
    · intro p hp j
      by_cases e : p = p0
      · rw [e, hto p0 hnd.1, at0 j]
      · have hp2 : p ∈ ps := (List.mem_cons.mp hp).resolve_left e
        rw [ht p hp2 j, ato p e, hpend p e]
    · intro p hp
      have e : p ≠ p0 := fun e => hp (e ▸ List.mem_cons_self p0 ps)
      have hp2 : p ∉ ps := fun m => hp (List.mem_cons_of_mem p0 m)
      rw [hto p hp2, ato p e]
    · intro p hp
      have e : p ≠ p0 := fun e => hp (e ▸ List.mem_cons_self p0 ps)
      have hp2 : p ∉ ps := fun m => hp (List.mem_cons_of_mem p0 m)
      rw [huo p hp2, auo p e]
    · intro p hp j
      by_cases e : p = p0
      · rw [e, huo p0 hnd.1, au j]
      · have hp2 : p ∈ ps := (List.mem_cons.mp hp).resolve_left e
        rw [hu p hp2 j, ac, auo p e]

theorem applyPhase_list_isSome (c : Params) (ps : List Nat) (s : Sys)
    (h1 : 1 ≤ c.LocalTableSize) (h2 : c.LocalTableSize ≤ 2 ^ 31)
    (hc : ∀ p, s.count p ≤ MAXTHREADS) :
    ∃ s', ps.foldlM (applyUpdates c) s = some s' := by
  induction ps generalizing s with
  | nil => exact ⟨s, rfl⟩
  | cons p0 ps ih =>
    obtain ⟨s1, hs1⟩ := applyUpdates_isSome c p0 s h1 h2 (hc p0)
    have hcount := (applyUpdates_spec c p0 s s1 hs1).2.2.2.1
    obtain ⟨s', hs'⟩ := ih s1 (by rw [hcount]; exact hc)
    exact ⟨s', (foldlM_cons_some (applyUpdates c) p0 ps s s').mpr ⟨s1, hs1, hs'⟩⟩

/-- The apply phase: every PE XORs its pending values into its own table. -/
theorem applyPhase_spec (c : Params) (s s' : Sys) (h : applyPhase c s = some s') :
    (∀ p, p < c.numNodes → ∀ j, s'.HPCC_Table p j = s.HPCC_Table p j ^^^
      xorList ((pending s p).filter fun v => decide (index c v = (j : Int)))) ∧
    (∀ p, ¬ p < c.numNodes → s'.HPCC_Table p = s.HPCC_Table p) ∧
    s'.ran = s.ran ∧ s'.count = s.count ∧
    s'.remote_proc = s.remote_proc ∧ s'.remotecount = s.remotecount ∧
    (∀ p, ¬ p < c.numNodes → s'.updates p = s.updates p) ∧
    (∀ p, p < c.numNodes → ∀ j,
      s'.updates p j = if j < s.count p then 0 else s.updates p j) := by
  unfold applyPhase at h
  have := applyPhase_list_spec c (List.range c.numNodes) s s' h (List.nodup_range _)
  simpa only [List.mem_range] using this

theorem pending_roundStart (s : Sys) (p : Nat) : pending (roundStart s) p = [] := by
  simp [pending, roundStart]

theorem oneRound_eq_some (c : Params) (sched : List Nat) (s s' : Sys)
    (h : oneRound c sched s = some s') :
    ∃ s1, routePhase c sched (roundStart s) = some s1 ∧ applyPhase c s1 = some s' := by
  unfold oneRound at h
  exact Option.bind_eq_some.mp h

/-- The values generated in one round that begins with the generator states `ran`. -/
theorem valuesFrom_one (c : Params) (ran : Nat → Nat) :
    valuesFrom c ran 1 = (List.range c.numNodes).map fun q => advance c.POLY (ran q) := by
  unfold valuesFrom
  have : List.range 1 = [0] := rfl
  rw [this]
  simp

theorem filter_addressed (c : Params) (p j : Nat) (l : List Nat) :
    (l.filter fun v => decide (remote_proc c v = (p : Int))).filter
        (fun v => decide (index c v = (j : Int)))
      = l.filter (addressed c p j) := by
  rw [List.filter_filter]
  apply List.filter_congr
  intro v _
  unfold addressed
  by_cases h1 : remote_proc c v = (p : Int) <;> by_cases h2 : index c v = (j : Int) <;>
    simp [h1, h2]

/-- One round: every slot receives the XOR of the values of this round that are addressed
to it, whatever the order of the reservations; every generator makes one step. -/
theorem oneRound_spec (c : Params) (sched : List Nat) (s s' : Sys)
    (h : oneRound c sched s = some s') (hs : sched.Perm (List.range c.numNodes)) :
    (∀ p, p < c.numNodes → ∀ j, s'.HPCC_Table p j = s.HPCC_Table p j ^^^
      xorList ((valuesFrom c s.ran 1).filter (addressed c p j))) ∧
    (∀ p, ¬ p < c.numNodes → s'.HPCC_Table p = s.HPCC_Table p) ∧
    (∀ q, s'.ran q = if q < c.numNodes then advance c.POLY (s.ran q) else s.ran q) := by
  obtain ⟨s1, hr, ha⟩ := oneRound_eq_some c sched s s' h
  have hnd : sched.Nodup := hs.nodup_iff.mpr (List.nodup_range _)
  obtain ⟨rt, rr, rp⟩ := routePhase_spec c sched (roundStart s) s1 hr hnd
  obtain ⟨at1, ato, ar, _, _, _, _, _⟩ := applyPhase_spec c s1 s' ha
  have hT : (roundStart s).HPCC_Table = s.HPCC_Table := rfl
  have hR : (roundStart s).ran = s.ran := rfl
  refine ⟨?_, ?_, ?_⟩
  · intro p hp j
    rw [at1 p hp j, rt, hT, rp p, pending_roundStart, List.nil_append, filter_addressed, hR,
      valuesFrom_one]
    congr 1
    apply xorList_perm
    exact (hs.map _).filter _
  · intro p hp
    rw [ato p hp, rt, hT]
  · intro q
    rw [ar, rr q, hR]
    have : q ∈ sched ↔ q < c.numNodes := by
      rw [hs.mem_iff, List.mem_range]
    simp only [this]

theorem oneRound_isSome (c : Params) (sched : List Nat) (s : Sys)
    (h1 : 0 ≤ logTableLocal c ∧ logTableLocal c < 64)
    (h2 : c.numNodes ≤ MAXTHREADS)
    (h3 : 1 ≤ c.LocalTableSize) (h4 : c.LocalTableSize ≤ 2 ^ 31)
    (hs : sched.Perm (List.range c.numNodes)) :
    ∃ s', oneRound c sched s = some s' := by
  have hlen : sched.length = c.numNodes := by rw [hs.length_eq, List.length_range]
  have hM : MAXTHREADS = 256 := rfl
  by_cases h0 : c.numNodes = 0
  · have : sched = [] := List.length_eq_zero.mp (by rw [hlen, h0])
    subst this
    obtain ⟨s', hs'⟩ := applyPhase_list_isSome c (List.range c.numNodes) (roundStart s) h3 h4
      (fun p => Nat.zero_le _)
    exact ⟨s', by unfold oneRound; rw [routePhase_nil]; exact hs'⟩
  · obtain ⟨s1, hs1, hc⟩ := routePhase_isSome c sched (roundStart s) 0 h1 (by omega)
      (by omega) (fun p => Nat.le_refl 0) (by omega)
    obtain ⟨s', hs'⟩ := applyPhase_list_isSome c (List.range c.numNodes) s1 h3 h4
      (fun p => by have := hc p; omega)
    refine ⟨s', ?_⟩
    unfold oneRound
    rw [hs1]
    exact hs'

end Rounds

section Run

theorem valuesFrom_succ (c : Params) (ran0 : Nat → Nat) (r : Nat) :
    valuesFrom c ran0 (r + 1) = valuesFrom c ran0 r ++
      (List.range c.numNodes).map fun q => (advance c.POLY)^[r + 1] (ran0 q) := by
  unfold valuesFrom
  rw [List.range_succ, List.flatMap_append]
  simp

theorem rounds_succ_eq_some (c : Params) (scheds : Nat → List Nat) (k : Nat) (s s' : Sys)
    (h : rounds c scheds (k + 1) s = some s') :
    ∃ s1, rounds c scheds k s = some s1 ∧ oneRound c (scheds k) s1 = some s' := by
  unfold rounds at h
  exact Option.bind_eq_some.mp h

/-- The state after `r` rounds: every generator has made `r` steps, and every slot holds
its old value XOR the XOR of all values of these rounds addressed to it. -/
theorem rounds_spec (c : Params) (scheds : Nat → List Nat) (r : Nat) (s s' : Sys)
    (h : rounds c scheds r s = some s') (hv : ValidScheds c scheds) :
    (∀ q, s'.ran q = if q < c.numNodes then (advance c.POLY)^[r] (s.ran q) else s.ran q) ∧
    (∀ p, p < c.numNodes → ∀ j, s'.HPCC_Table p j = s.HPCC_Table p j ^^^
      xorList ((valuesFrom c s.ran r).filter (addressed c p j))) ∧
    (∀ p, ¬ p < c.numNodes → s'.HPCC_Table p = s.HPCC_Table p) := by
  induction r generalizing s' with
  | zero =>
    unfold rounds at h
    cases h
    simp [valuesFrom, xorList_nil]
  | succ r ih =>
    obtain ⟨s1, h1, h2⟩ := rounds_succ_eq_some c scheds r s s' h
    obtain ⟨ir, it, ito⟩ := ih s1 h1
    obtain ⟨ot, oto, orr⟩ := oneRound_spec c (scheds r) s1 s' h2 (hv r)
    have hvals : valuesFrom c s1.ran 1
        = (List.range c.numNodes).map fun q => (advance c.POLY)^[r + 1] (s.ran q) := by
      rw [valuesFrom_one]
      apply List.map_congr_left
      intro q hq
      rw [ir q, if_pos (List.mem_range.mp hq), Function.iterate_succ_apply']
    refine ⟨?_, ?_, ?_⟩
    · intro q
      rw [orr q, ir q]
      by_cases hq : q < c.numNodes
      · rw [if_pos hq, if_pos hq, if_pos hq, Function.iterate_succ_apply']
      · rw [if_neg hq, if_neg hq, if_neg hq]
    · intro p hp j
      rw [ot p hp j, it p hp j, hvals, valuesFrom_succ, List.filter_append, xorList_append,
        Nat.xor_assoc]
    · intro p hp
      rw [oto p hp, ito p hp]

theorem rounds_isSome (c : Params) (scheds : Nat → List Nat) (r : Nat) (s : Sys)
    (h1 : 0 ≤ logTableLocal c ∧ logTableLocal c < 64)
    (h2 : c.numNodes ≤ MAXTHREADS)
    (h3 : 1 ≤ c.LocalTableSize) (h4 : c.LocalTableSize ≤ 2 ^ 31)
    (hv : ValidScheds c scheds) :
    ∃ s', rounds c scheds r s = some s' := by
  induction r with
  | zero => exact ⟨s, rfl⟩
  | succ r ih =>
    obtain ⟨s1, hs1⟩ := ih
    obtain ⟨s', hs'⟩ := oneRound_isSome c (scheds r) s1 h1 h2 h3 h4 (hv r)
    refine ⟨s', ?_⟩
    unfold rounds
    rw [hs1]
    exact hs'

/-- The result of a run that completes, slot by slot, in terms of the owner and the index
the routine computes. -/
theorem run_spec (c : Params) (scheds : Nat → List Nat) (s s' : Sys)
    (h : Power2NodesRandomAccessUpdate c scheds s = some s') (hv : ValidScheds c scheds) :
    (∀ q, q < c.numNodes → s'.ran q = genValue c q (roundsExecuted c)) ∧
    (∀ p, p < c.numNodes → ∀ j, s'.HPCC_Table p j = s.HPCC_Table p j ^^^
      xorList ((streamValues c (roundsExecuted c)).filter (addressed c p j))) := by
  unfold Power2NodesRandomAccessUpdate at h
  obtain ⟨hr, ht, _⟩ := rounds_spec c scheds (roundsExecuted c) (setup c s) s' h hv
  refine ⟨?_, ?_⟩
  · intro q hq
    rw [hr q, if_pos hq]
    rfl
  · intro p hp j
    rw [ht p hp j]
    rfl

theorem run_isSome (c : Params) (scheds : Nat → List Nat) (s : Sys)
    (h1 : 0 ≤ logTableLocal c ∧ logTableLocal c < 64)
    (h2 : c.numNodes ≤ MAXTHREADS)
    (h3 : 1 ≤ c.LocalTableSize) (h4 : c.LocalTableSize ≤ 2 ^ 31)
    (hv : ValidScheds c scheds) :
    ∃ s', Power2NodesRandomAccessUpdate c scheds s = some s' :=
  rounds_isSome c scheds (roundsExecuted c) (setup c s) h1 h2 h3 h4 hv

end Run

/-! ## Jump-ahead and step -/

section Claims

/-- C1: jump-ahead/step consistency.  For every 64-bit constant `POLY`, every `PERIOD` below
`2^63` and every `n < PERIOD`, one generator step applied to `starts(n)` gives exactly
`starts(n+1)`. -/
theorem starts_step_consistency (POLY PERIOD n : Nat) (hP : POLY < 2 ^ 64)
    (hPer : PERIOD < 2 ^ 63) (hn : n < PERIOD) :
    advance POLY (starts POLY PERIOD n) = starts POLY PERIOD (n + 1) := by
  rw [starts_eq_pw POLY PERIOD n hP hPer (Nat.le_of_lt hn),
    starts_eq_pw POLY PERIOD (n + 1) hP hPer hn, pw_succ]

/-- Instance of C1 with the HPCC constants at `n = 1000`. -/
theorem starts_step_consistency_witness :
    POLY_HPCC < 2 ^ 64 ∧ PERIOD_HPCC < 2 ^ 63 ∧ 1000 < PERIOD_HPCC ∧
    advance POLY_HPCC (starts POLY_HPCC PERIOD_HPCC 1000)
      = starts POLY_HPCC PERIOD_HPCC (1000 + 1) :=
  ⟨by decide, by decide, by decide,
    starts_step_consistency POLY_HPCC PERIOD_HPCC 1000 (by decide) (by decide) (by decide)⟩

theorem roundsExecuted_of_range (c : Params) (h0 : 0 ≤ c.ProcNumUpdates)
    (h1 : c.ProcNumUpdates < 2 ^ 31) : roundsExecuted c = c.ProcNumUpdates.toNat := by
  unfold roundsExecuted niterate
  rw [toInt32_of_range _ h0 h1]

theorem addressed_pow2 (c : Params) (k p i v : Nat) (hk : c.logNumProcs = (k : Int))
    (hn : c.numNodes = 2 ^ k) (hle : k ≤ c.logTableSize) (hk30 : k ≤ 30)
    (hs : c.logTableSize - k ≤ 31) (h1 : 1 ≤ c.LocalTableSize)
    (h2 : c.LocalTableSize ≤ 2 ^ 31) :
    addressed c p i v = decide ((v >>> (c.logTableSize - k)) &&& (c.numNodes - 1) = p ∧
      v &&& (c.LocalTableSize - 1) = i) := by
  unfold addressed
  rw [remote_proc_pow2 c k v hk hn hle hk30 hs, index_eq c v h1 h2]
  simp only [Nat.cast_inj]

theorem logTableLocal_range (c : Params) (k : Nat) (hk : c.logNumProcs = (k : Int))
    (hle : k ≤ c.logTableSize) (hs : c.logTableSize - k ≤ 63) :
    0 ≤ logTableLocal c ∧ logTableLocal c < 64 := by
  rw [logTableLocal_eq c k hk hle hs]
  omega

theorem pow2_exponent_le (a b : Nat) (h : 2 ^ a ≤ 2 ^ b) : a ≤ b :=
  (Nat.pow_le_pow_iff_right (by norm_num)).mp h

/-- C2: per-slot result of a run (zero loss).  For every configuration with
`numNodes = 2^logNumProcs`, `logNumProcs ≤ logTableSize`, `numNodes ≤ MAXTHREADS`,
`LocalTableSize = 2^(logTableSize - logNumProcs) ≤ 2^31` and `0 ≤ ProcNumUpdates < 2^31`,
and every order of the reservations in every round, the run completes and every slot `i` of
every PE `p` holds its initial value XOR the XOR of all values `v` generated by any PE in
any round with `(v >> (logTableSize - logNumProcs)) & (numNodes - 1) = p` and
`v & (LocalTableSize - 1) = i`. -/
theorem run_slot_result (c : Params) (k : Nat) (scheds : Nat → List Nat) (s : Sys)
    (hn : c.numNodes = 2 ^ k) (hk : c.logNumProcs = (k : Int)) (hle : k ≤ c.logTableSize)
    (hmax : c.numNodes ≤ MAXTHREADS)
    (hL : c.LocalTableSize = 2 ^ (c.logTableSize - k)) (hL31 : c.LocalTableSize ≤ 2 ^ 31)
    (hu0 : 0 ≤ c.ProcNumUpdates) (hu1 : c.ProcNumUpdates < 2 ^ 31)
    (hv : ValidScheds c scheds) :
    ∃ s', Power2NodesRandomAccessUpdate c scheds s = some s' ∧
      ∀ p, p < c.numNodes → ∀ i, i < c.LocalTableSize →
        s'.HPCC_Table p i = s.HPCC_Table p i ^^^
          xorList ((streamValues c c.ProcNumUpdates.toNat).filter fun v =>
            decide ((v >>> (c.logTableSize - k)) &&& (c.numNodes - 1) = p ∧
              v &&& (c.LocalTableSize - 1) = i)) := by
  have hk8 : k ≤ 8 := by
    apply pow2_exponent_le
    rw [← hn]; exact hmax
  have hs : c.logTableSize - k ≤ 31 := by
    apply pow2_exponent_le
    rw [← hL]; exact hL31
  have h1 : 1 ≤ c.LocalTableSize := by rw [hL]; exact Nat.one_le_two_pow
  have hs63 : c.logTableSize - k ≤ 63 := le_trans hs (by norm_num)
  have hk30 : k ≤ 30 := le_trans hk8 (by norm_num)
  obtain ⟨s', hs'⟩ := run_isSome c scheds s (logTableLocal_range c k hk hle hs63) hmax h1
    hL31 hv
  refine ⟨s', hs', ?_⟩
  intro p hp i _
  rw [(run_spec c scheds s s' hs' hv).2 p hp i, roundsExecuted_of_range c hu0 hu1]
  have e : addressed c p i = fun v =>
      decide ((v >>> (c.logTableSize - k)) &&& (c.numNodes - 1) = p ∧
        v &&& (c.LocalTableSize - 1) = i) :=
    funext fun v => addressed_pow2 c k p i v hk hn hle hk30 hs h1 hL31
  rw [e]

/-- Instance of C2 at the scenario of the specification: `logTableSize = 10`,
`numNodes = 4`, `ProcNumUpdates = 256`. -/
theorem run_slot_result_witness :
    ∃ s', Power2NodesRandomAccessUpdate scenario (inOrder scenario) (initialSys scenario)
        = some s' ∧
      ∀ p, p < scenario.numNodes → ∀ i, i < scenario.LocalTableSize →
        s'.HPCC_Table p i = (initialSys scenario).HPCC_Table p i ^^^
          xorList ((streamValues scenario scenario.ProcNumUpdates.toNat).filter fun v =>
            decide ((v >>> (scenario.logTableSize - 2)) &&& (scenario.numNodes - 1) = p ∧
              v &&& (scenario.LocalTableSize - 1) = i)) :=
  run_slot_result scenario 2 (inOrder scenario) (initialSys scenario)
    (by decide) (by decide) (by decide) (by decide) (by decide) (by decide) (by decide)
    (by decide) (fun _ => List.Perm.refl _)

end Claims

/-! ## Ownership -/

section Ownership

theorem pow2_exponent_lt (a b : Nat) (h : 2 ^ a < 2 ^ b) : a < b :=
  (Nat.pow_lt_pow_iff_right (by norm_num)).mp h

/-- Owner and index in a power-of-two configuration, as quotient and remainder. -/
theorem owner_index_divmod (c : Params) (k v : Nat) (hn : c.numNodes = 2 ^ k)
    (hint : c.numNodes < 2 ^ 31) (hk : c.logNumProcs = (k : Int)) (hle : k ≤ c.logTableSize)
    (hL : c.LocalTableSize = 2 ^ (c.logTableSize - k)) (hL31 : c.LocalTableSize ≤ 2 ^ 31) :
    remote_proc c v = ((v / 2 ^ (c.logTableSize - k) % 2 ^ k : Nat) : Int) ∧
    index c v = ((v % 2 ^ (c.logTableSize - k) : Nat) : Int) := by
  have hk30 : k ≤ 30 := by
    have : k < 31 := pow2_exponent_lt k 31 (by rw [← hn]; exact hint)
    exact Nat.le_of_lt_succ this
  have hs : c.logTableSize - k ≤ 31 := pow2_exponent_le _ 31 (by rw [← hL]; exact hL31)
  have h1 : 1 ≤ c.LocalTableSize := by rw [hL]; exact Nat.one_le_two_pow
  constructor
  · rw [remote_proc_pow2 c k v hk hn hle hk30 hs, hn, Nat.and_pow_two_sub_one_eq_mod,
      Nat.shiftRight_eq_div_pow]
  · rw [index_eq c v h1 hL31, hL, Nat.and_pow_two_sub_one_eq_mod]

theorem split_lt (a s k : Nat) (h : a < 2 ^ (s + k)) : a / 2 ^ s < 2 ^ k := by
  apply Nat.div_lt_of_lt_mul
  rw [← Nat.pow_add]; exact h

/-- C3: ownership bijection.  For every `logTableSize` and `numNodes = 2^k` (an `int`, hence
below `2^31`) with `k ≤ logTableSize` and `LocalTableSize = 2^(logTableSize-k) ≤ 2^31`, the
map that sends an address `a < 2^logTableSize` to the pair `(remote_proc, index)` computed by
the routine is a bijection onto `[0, numNodes) × [0, LocalTableSize)`. -/
theorem ownership_bijection (c : Params) (k : Nat) (hn : c.numNodes = 2 ^ k)
    (hint : c.numNodes < 2 ^ 31) (hk : c.logNumProcs = (k : Int)) (hle : k ≤ c.logTableSize)
    (hL : c.LocalTableSize = 2 ^ (c.logTableSize - k)) (hL31 : c.LocalTableSize ≤ 2 ^ 31) :
    Set.BijOn (fun a : Nat => (remote_proc c a, index c a))
      {a | a < 2 ^ c.logTableSize}
      {x | 0 ≤ x.1 ∧ x.1 < (c.numNodes : Int) ∧ 0 ≤ x.2 ∧ x.2 < (c.LocalTableSize : Int)} := by
  have hsum : c.logTableSize = (c.logTableSize - k) + k := (Nat.sub_add_cancel hle).symm
  have hpos : 0 < 2 ^ (c.logTableSize - k) := Nat.pos_pow_of_pos _ (by norm_num)
  have hdm := fun v => owner_index_divmod c k v hn hint hk hle hL hL31
  refine ⟨?_, ?_, ?_⟩
  · intro a _
    show 0 ≤ remote_proc c a ∧ remote_proc c a < (c.numNodes : Int) ∧ 0 ≤ index c a ∧
      index c a < (c.LocalTableSize : Int)
    rw [(hdm a).1, (hdm a).2, hn, hL]
    have h1 : a / 2 ^ (c.logTableSize - k) % 2 ^ k < 2 ^ k :=
      Nat.mod_lt _ (Nat.pos_pow_of_pos _ (by norm_num))
    have h2 : a % 2 ^ (c.logTableSize - k) < 2 ^ (c.logTableSize - k) := Nat.mod_lt _ hpos
    exact ⟨Int.natCast_nonneg _, Int.ofNat_lt.mpr h1, Int.natCast_nonneg _, Int.ofNat_lt.mpr h2⟩
  · intro a ha b hb hab
    have ha2 : a < 2 ^ ((c.logTableSize - k) + k) := by rw [← hsum]; exact ha
    have hb2 : b < 2 ^ ((c.logTableSize - k) + k) := by rw [← hsum]; exact hb
    have hab2 : (remote_proc c a, index c a) = (remote_proc c b, index c b) := hab
    obtain ⟨e1, e2⟩ := Prod.mk.inj hab2
    rw [(hdm a).1, (hdm b).1] at e1
    rw [(hdm a).2, (hdm b).2] at e2
    have e1 := Int.ofNat_inj.mp e1
    have e2 := Int.ofNat_inj.mp e2
    rw [Nat.mod_eq_of_lt (split_lt a _ k ha2), Nat.mod_eq_of_lt (split_lt b _ k hb2)] at e1
    rw [← Nat.div_add_mod a (2 ^ (c.logTableSize - k)),
      ← Nat.div_add_mod b (2 ^ (c.logTableSize - k)), e1, e2]
  · rintro ⟨p, i⟩ ⟨hp0, hp1, hi0, hi1⟩
    simp only at hp0 hp1 hi0 hi1
    obtain ⟨p', rfl⟩ := Int.eq_ofNat_of_zero_le hp0
    obtain ⟨i', rfl⟩ := Int.eq_ofNat_of_zero_le hi0
    have hp' : p' < 2 ^ k := by rw [← hn]; exact Int.ofNat_lt.mp hp1
    have hi' : i' < 2 ^ (c.logTableSize - k) := by rw [← hL]; exact Int.ofNat_lt.mp hi1
    refine ⟨p' * 2 ^ (c.logTableSize - k) + i', ?_, ?_⟩
    · show p' * 2 ^ (c.logTableSize - k) + i' < 2 ^ c.logTableSize
      have : 2 ^ c.logTableSize = 2 ^ k * 2 ^ (c.logTableSize - k) := by
        rw [← Nat.pow_add, Nat.add_comm, ← hsum]
      rw [this]
      calc p' * 2 ^ (c.logTableSize - k) + i'
          < p' * 2 ^ (c.logTableSize - k) + 2 ^ (c.logTableSize - k) := Nat.add_lt_add_left hi' _
        _ = (p' + 1) * 2 ^ (c.logTableSize - k) := by ring
        _ ≤ 2 ^ k * 2 ^ (c.logTableSize - k) := Nat.mul_le_mul_right _ hp'
    · show (remote_proc c _, index c _) = ((p' : Int), (i' : Int))
      rw [(hdm _).1, (hdm _).2]
      have d1 : (p' * 2 ^ (c.logTableSize - k) + i') / 2 ^ (c.logTableSize - k) = p' := by
        rw [Nat.add_comm, Nat.add_mul_div_right _ _ hpos, Nat.div_eq_of_lt hi', Nat.zero_add]
      have d2 : (p' * 2 ^ (c.logTableSize - k) + i') % 2 ^ (c.logTableSize - k) = i' := by
        rw [Nat.add_comm, Nat.add_mul_mod_self_right, Nat.mod_eq_of_lt hi']
      rw [d1, d2, Nat.mod_eq_of_lt hp']

/-- Instance of C3 at the scenario of the specification (1024 addresses, 4 PEs). -/
theorem ownership_bijection_witness :
    Set.BijOn (fun a : Nat => (remote_proc scenario a, index scenario a))
      {a | a < 2 ^ scenario.logTableSize}
      {x | 0 ≤ x.1 ∧ x.1 < (scenario.numNodes : Int) ∧ 0 ≤ x.2 ∧
        x.2 < (scenario.LocalTableSize : Int)} :=
  ownership_bijection scenario 2 (by decide) (by decide) (by decide) (by decide) (by decide)
    (by decide)

end Ownership

/-! ## Running the routine twice -/

section SelfInverse

theorem xor_cancel_twice (a x : Nat) : a ^^^ x ^^^ x = a := by
  rw [Nat.xor_assoc, Nat.xor_self, Nat.xor_zero]

/-- C4: self-inverse.  For every configuration, every initial state and every order of the
reservations in either run: when the routine is run and then run again with the same inputs,
every table slot of every PE is back at its original value; and within the limits of the
routine (shift count in `[0, 64)`, `numNodes ≤ MAXTHREADS`, `1 ≤ LocalTableSize ≤ 2^31`)
both runs complete. -/
theorem run_twice_restores (c : Params) (scheds1 scheds2 : Nat → List Nat) (s : Sys)
    (hv1 : ValidScheds c scheds1) (hv2 : ValidScheds c scheds2) :
    (∀ s1 s2, Power2NodesRandomAccessUpdate c scheds1 s = some s1 →
      Power2NodesRandomAccessUpdate c scheds2 s1 = some s2 →
      ∀ p, p < c.numNodes → ∀ i, s2.HPCC_Table p i = s.HPCC_Table p i) ∧
    ((0 ≤ logTableLocal c ∧ logTableLocal c < 64) → c.numNodes ≤ MAXTHREADS →
      1 ≤ c.LocalTableSize → c.LocalTableSize ≤ 2 ^ 31 →
      ∃ s1 s2, Power2NodesRandomAccessUpdate c scheds1 s = some s1 ∧
        Power2NodesRandomAccessUpdate c scheds2 s1 = some s2) := by
  constructor
  · intro s1 s2 h1 h2 p hp i
    rw [(run_spec c scheds2 s1 s2 h2 hv2).2 p hp i, (run_spec c scheds1 s s1 h1 hv1).2 p hp i]
    exact xor_cancel_twice _ _
  · intro a b d e
    obtain ⟨s1, h1⟩ := run_isSome c scheds1 s a b d e hv1
    obtain ⟨s2, h2⟩ := run_isSome c scheds2 s1 a b d e hv2
    exact ⟨s1, s2, h1, h2⟩

/-- Instance of C4 at the scenario of the specification. -/
theorem run_twice_restores_witness :
    (∀ s1 s2,
      Power2NodesRandomAccessUpdate scenario (inOrder scenario) (initialSys scenario) = some s1 →
      Power2NodesRandomAccessUpdate scenario (inOrder scenario) s1 = some s2 →
      ∀ p, p < scenario.numNodes → ∀ i,
        s2.HPCC_Table p i = (initialSys scenario).HPCC_Table p i) ∧
    ((0 ≤ logTableLocal scenario ∧ logTableLocal scenario < 64) →
      scenario.numNodes ≤ MAXTHREADS →
      1 ≤ scenario.LocalTableSize → scenario.LocalTableSize ≤ 2 ^ 31 →
      ∃ s1 s2,
        Power2NodesRandomAccessUpdate scenario (inOrder scenario) (initialSys scenario)
          = some s1 ∧
        Power2NodesRandomAccessUpdate scenario (inOrder scenario) s1 = some s2) :=
  run_twice_restores scenario (inOrder scenario) (inOrder scenario) (initialSys scenario)
    (fun _ => List.Perm.refl _) (fun _ => List.Perm.refl _)

end SelfInverse

/-! ## Slot reservation -/

section Reservation

theorem reserved_start (c : Params) (s : Sys) : Reserved c [] (roundStart s) := by
  refine ⟨?_, ?_, ?_, ?_⟩
  · intro q hq; cases hq
  · intro q hq; cases hq
  · intro p j
    constructor
    · intro h; exact absurd h (Nat.not_lt_zero j)
    · rintro ⟨q, hq, _⟩; cases hq
  · intro q hq; cases hq

/-- What a successful reservation and put of PE `q` at owner `rp` does. -/
theorem reserveAndPut_eq_some (c : Params) (s s' : Sys) (q : Nat) (rp : Int)
    (h : reserveAndPut c s q rp = some s') :
    (0 ≤ rp ∧ rp < (c.numNodes : Int)) ∧ s.count rp.toNat < MAXTHREADS ∧
    s' = { s with
      remote_proc := Function.update s.remote_proc q rp
      remotecount := Function.update s.remotecount q (s.count rp.toNat)
      count := Function.update s.count rp.toNat (s.count rp.toNat + 1)
      updates := Function.update s.updates rp.toNat
        (Function.update (s.updates rp.toNat) (s.count rp.toNat) (s.ran q)) } := by
  unfold reserveAndPut at h
  simp only at h
  by_cases h2 : 0 ≤ rp ∧ rp < (c.numNodes : Int)
  · rw [if_pos h2] at h
    by_cases h3 : s.count rp.toNat < MAXTHREADS
    · rw [if_pos h3] at h
      exact ⟨h2, h3, (Option.some.inj h).symm⟩
    · rw [if_neg h3] at h; exact absurd h (by simp)
  · rw [if_neg h2] at h; exact absurd h (by simp)

/-- One reservation keeps the reservations consistent. -/
theorem reserved_reserve (c : Params) (done : List Nat) (s s' : Sys) (q : Nat) (rp : Int)
    (hq : q ∉ done) (h : reserveAndPut c s q rp = some s') (hI : Reserved c done s) :
    Reserved c (done ++ [q]) s' := by
  obtain ⟨h2, _, rfl⟩ := reserveAndPut_eq_some c s s' q rp h
  obtain ⟨i1, i2, i3, i4⟩ := hI
  have hne : ∀ q', q' ∈ done → q' ≠ q := fun q' m e => hq (e ▸ m)
  have htoNat : ∀ q', q' ∈ done → (s.remote_proc q').toNat = rp.toNat →
      s.remote_proc q' = rp := by
    intro q' m e
    rw [← Int.toNat_of_nonneg (i1 q' m).1, ← Int.toNat_of_nonneg h2.1, e]
  have hlt : ∀ q', q' ∈ done → s.remote_proc q' = rp →
      s.remotecount q' < s.count rp.toNat := by
    intro q' m e
    apply (i3 _ _).mpr
    exact ⟨q', m, by rw [e, Int.toNat_of_nonneg h2.1], rfl⟩
  refine ⟨?_, ?_, ?_, ?_⟩
  · intro q' m
    simp only
    rcases List.mem_append.mp m with m | m
    · rw [Function.update_noteq (hne q' m)]; exact i1 q' m
    · rw [List.mem_singleton.mp m, Function.update_same]; exact h2
  · intro a ma b mb hab
    simp only
    rcases List.mem_append.mp ma with ma | ma <;> rcases List.mem_append.mp mb with mb | mb
    · rw [Function.update_noteq (hne a ma), Function.update_noteq (hne b mb),
        Function.update_noteq (hne a ma), Function.update_noteq (hne b mb)]
      exact i2 a ma b mb hab
    · rw [List.mem_singleton.mp mb, Function.update_same, Function.update_same,
        Function.update_noteq (hne a ma), Function.update_noteq (hne a ma)]
      intro e
      exact Nat.ne_of_lt (hlt a ma e)
    · rw [List.mem_singleton.mp ma, Function.update_same, Function.update_same,
        Function.update_noteq (hne b mb), Function.update_noteq (hne b mb)]
      intro e
      exact (Nat.ne_of_lt (hlt b mb e.symm)).symm
    · exact absurd ((List.mem_singleton.mp ma).trans (List.mem_singleton.mp mb).symm) hab
  · intro p j
    simp only
    by_cases hp : rp = (p : Int)
    · have ht : rp.toNat = p := by rw [hp]; exact Int.toNat_natCast p
      rw [ht, Function.update_same]
      constructor
      · intro hj
        by_cases hj2 : j < s.count p
        · obtain ⟨q', m, e1, e2⟩ := (i3 p j).mp hj2
          refine ⟨q', List.mem_append_left _ m, ?_, ?_⟩
          · rw [Function.update_noteq (hne q' m)]; exact e1
          · rw [Function.update_noteq (hne q' m)]; exact e2
        · refine ⟨q, List.mem_append_right _ (List.mem_singleton_self q), ?_, ?_⟩
          · rw [Function.update_same]; exact hp
          · rw [Function.update_same]; omega
      · rintro ⟨q', m, e1, e2⟩
        rcases List.mem_append.mp m with m | m
        · rw [Function.update_noteq (hne q' m)] at e1 e2
          have := (i3 p j).mpr ⟨q', m, e1, e2⟩
          omega
        · rw [List.mem_singleton.mp m, Function.update_same] at e2
          omega
    · have ht : p ≠ rp.toNat := by
        intro e; apply hp; rw [e, Int.toNat_of_nonneg h2.1]
      rw [Function.update_noteq ht]
      constructor
      · intro hj
        obtain ⟨q', m, e1, e2⟩ := (i3 p j).mp hj
        refine ⟨q', List.mem_append_left _ m, ?_, ?_⟩
        · rw [Function.update_noteq (hne q' m)]; exact e1
        · rw [Function.update_noteq (hne q' m)]; exact e2
      · rintro ⟨q', m, e1, e2⟩
        rcases List.mem_append.mp m with m | m
        · rw [Function.update_noteq (hne q' m)] at e1 e2
          exact (i3 p j).mpr ⟨q', m, e1, e2⟩
        · rw [List.mem_singleton.mp m, Function.update_same] at e1
          exact absurd e1 hp
  · intro q' m
    simp only
    rcases List.mem_append.mp m with m | m
    · rw [Function.update_noteq (hne q' m), Function.update_noteq (hne q' m)]
      by_cases e : (s.remote_proc q').toNat = rp.toNat
      · have hl := hlt q' m (htoNat q' m e)
        rw [e, Function.update_same, Function.update_noteq (Nat.ne_of_lt hl), ← e]
        exact i4 q' m
      · rw [Function.update_noteq e]
        exact i4 q' m
    · rw [List.mem_singleton.mp m, Function.update_same, Function.update_same,
        Function.update_same, Function.update_same]

theorem route_eq_reserve (c : Params) (s s' : Sys) (q : Nat) (h : route c s q = some s') :
    reserveAndPut c { s with ran := Function.update s.ran q (advance c.POLY (s.ran q)) } q
      (remote_proc c (advance c.POLY (s.ran q))) = some s' := by
  unfold route at h
  simp only at h
  by_cases h1 : 0 ≤ logTableLocal c ∧ logTableLocal c < 64
  · rw [if_pos h1] at h; exact h
  · rw [if_neg h1] at h; exact absurd h (by simp)

theorem reserved_generate (c : Params) (done : List Nat) (s : Sys) (q v : Nat)
    (hq : q ∉ done) (hI : Reserved c done s) :
    Reserved c done { s with ran := Function.update s.ran q v } := by
  obtain ⟨i1, i2, i3, i4⟩ := hI
  refine ⟨i1, i2, i3, ?_⟩
  intro q' m
  have hne : q' ≠ q := fun e => hq (e ▸ m)
  simp only
  rw [Function.update_noteq hne]
  exact i4 q' m

theorem reserved_route (c : Params) (done : List Nat) (s s' : Sys) (q : Nat)
    (hq : q ∉ done) (h : route c s q = some s') (hI : Reserved c done s) :
    Reserved c (done ++ [q]) s' :=
  reserved_reserve c done _ s' q _ hq (route_eq_reserve c s s' q h)
    (reserved_generate c done s q _ hq hI)

theorem reserved_routePhase (c : Params) (todo done : List Nat) (s s' : Sys)
    (hnd : (done ++ todo).Nodup) (h : routePhase c todo s = some s')
    (hI : Reserved c done s) : Reserved c (done ++ todo) s' := by
  induction todo generalizing done s with
  | nil =>
    rw [routePhase_nil] at h
    cases h
    simpa using hI
  | cons q l ih =>
    obtain ⟨s1, hq, hrest⟩ := (routePhase_cons c q l s s').mp h
    have hq' : q ∉ done := by
      intro m
      have := List.disjoint_of_nodup_append hnd
      exact this m (List.mem_cons_self q l)
    have e : done ++ q :: l = (done ++ [q]) ++ l := by simp
    rw [e] at hnd ⊢
    exact ih (done ++ [q]) s1 hnd hrest (reserved_route c done s s1 q hq' hq hI)

end Reservation

/-! ## Order of the local apply step -/

section ApplyOrder

theorem range_map_getD (l : List Nat) :
    (List.range l.length).map (fun i => l.getD i 0) = l := by
  apply List.ext_getElem
  · simp
  · intro i h1 h2
    simp [List.getD_eq_getElem?_getD, List.getElem?_eq_getElem h2]

theorem pending_withBatch (s : Sys) (p : Nat) (l : List Nat) :
    pending (withBatch s p l) p = l := by
  unfold pending withBatch
  simp only [Function.update_same]
  exact range_map_getD l

/-- The apply loop over distinct positions completes exactly when every position lies in the
buffer and every value read selects a slot of the table. -/
theorem applyList_isSome_iff (c : Params) (p : Nat) (l : List Nat) (s : Sys) (hl : l.Nodup) :
    (∃ s', l.foldlM (applyOne c p) s = some s') ↔
      ∀ i, i ∈ l → i < MAXTHREADS ∧ 0 ≤ index c (s.updates p i) ∧
        index c (s.updates p i) < (c.LocalTableSize : Int) := by
  induction l generalizing s with
  | nil =>
    constructor
    · intro _ i hi; cases hi
    · intro _; exact ⟨s, rfl⟩
  | cons i0 l ih =>
    have hnd := List.nodup_cons.mp hl
    constructor
    · rintro ⟨s', h⟩
      obtain ⟨s1, h0, hrest⟩ := (foldlM_cons_some (applyOne c p) i0 l s s').mp h
      obtain ⟨a1, a2, _⟩ := applyOne_eq_some c p s s1 i0 h0
      have fu := (applyOne_frame c p s s1 i0 h0).2.2.2.2.2.2
      have hrec := (ih s1 hnd.2).mp ⟨s', hrest⟩
      intro i hi
      rcases List.mem_cons.mp hi with e | m
      · rw [e]; exact ⟨a1, a2⟩
      · have hne : i ≠ i0 := fun e => hnd.1 (e ▸ m)
        have := hrec i m
        rw [fu i, if_neg hne] at this
        exact this
    · intro h
      have h0 := h i0 (List.mem_cons_self i0 l)
      obtain ⟨s1, hs1⟩ := applyOne_isSome c p s i0 h0.1 h0.2
      have fu := (applyOne_frame c p s s1 i0 hs1).2.2.2.2.2.2
      have hrec : ∃ s', l.foldlM (applyOne c p) s1 = some s' := by
        apply (ih s1 hnd.2).mpr
        intro i m
        have hne : i ≠ i0 := fun e => hnd.1 (e ▸ m)
        rw [fu i, if_neg hne]
        exact h i (List.mem_cons_of_mem i0 m)
      obtain ⟨s', hs'⟩ := hrec
      exact ⟨s', (foldlM_cons_some (applyOne c p) i0 l s s').mpr ⟨s1, hs1, hs'⟩⟩

/-- The apply loop on a delivered batch completes exactly when the batch fits the buffer and
every value selects a slot of the table. -/
theorem applyBatch_isSome_iff (c : Params) (p : Nat) (s : Sys) (l : List Nat) :
    (∃ s', applyUpdates c (withBatch s p l) p = some s') ↔
      l.length ≤ MAXTHREADS ∧ ∀ v, v ∈ l → 0 ≤ index c v ∧
        index c v < (c.LocalTableSize : Int) := by
  unfold applyUpdates
  rw [applyList_isSome_iff c p _ _ (List.nodup_range _)]
  have hc : (withBatch s p l).count p = l.length := by
    unfold withBatch; simp only [Function.update_same]
  have hu : ∀ i, (withBatch s p l).updates p i = l.getD i 0 := by
    intro i; unfold withBatch; simp only [Function.update_same]
  rw [hc]
  constructor
  · intro h
    constructor
    · by_contra hlen
      have hm : MAXTHREADS < l.length := Nat.lt_of_not_le hlen
      have := (h MAXTHREADS (List.mem_range.mpr hm)).1
      exact Nat.lt_irrefl _ this
    · intro v hv
      obtain ⟨i, hi, e⟩ := List.getElem_of_mem hv
      have := (h i (List.mem_range.mpr hi)).2
      rw [hu i, List.getD_eq_getElem?_getD, List.getElem?_eq_getElem hi] at this
      simp only [Option.getD_some] at this
      rw [e] at this
      exact this
  · rintro ⟨hlen, hv⟩ i hi
    have hi2 := List.mem_range.mp hi
    refine ⟨Nat.lt_of_lt_of_le hi2 hlen, ?_⟩
    rw [hu i, List.getD_eq_getElem?_getD, List.getElem?_eq_getElem hi2]
    simp only [Option.getD_some]
    exact hv _ (List.getElem_mem hi2)

/-- C6: order-independence of the local apply step.  For every table, every PE and every
two batches of delivered values that are permutations of each other (duplicates of a local
index included), the apply loop yields the same final table of the PE (and it fails on the
one batch exactly when it fails on the other). -/
theorem apply_order_independent (c : Params) (p : Nat) (s : Sys) (l1 l2 : List Nat)
    (h : l1.Perm l2) :
    (applyUpdates c (withBatch s p l1) p).map (fun s' => s'.HPCC_Table p)
      = (applyUpdates c (withBatch s p l2) p).map (fun s' => s'.HPCC_Table p) := by
  have hiff : (∃ s', applyUpdates c (withBatch s p l1) p = some s') ↔
      (∃ s', applyUpdates c (withBatch s p l2) p = some s') := by
    rw [applyBatch_isSome_iff, applyBatch_isSome_iff, h.length_eq]
    constructor
    · rintro ⟨a, b⟩; exact ⟨a, fun v hv => b v (h.mem_iff.mpr hv)⟩
    · rintro ⟨a, b⟩; exact ⟨a, fun v hv => b v (h.mem_iff.mp hv)⟩
  cases h1 : applyUpdates c (withBatch s p l1) p with
  | none =>
    cases h2 : applyUpdates c (withBatch s p l2) p with
    | none => rfl
    | some s2 =>
      obtain ⟨s1, e⟩ := hiff.mpr ⟨s2, h2⟩
      rw [h1] at e; cases e
  | some s1 =>
    obtain ⟨s2, h2⟩ := hiff.mp ⟨s1, h1⟩
    rw [h2]
    simp only [Option.map_some']
    congr 1
    funext j
    rw [(applyUpdates_spec c p _ s1 h1).1 j, (applyUpdates_spec c p _ s2 h2).1 j,
      pending_withBatch, pending_withBatch]
    have : (withBatch s p l1).HPCC_Table = (withBatch s p l2).HPCC_Table := rfl
    rw [this]
    congr 1
    exact xorList_perm _ _ (h.filter _)

/-- Instance of C6: two orders of a batch with a duplicated local index. -/
theorem apply_order_independent_witness :
    (applyUpdates scenario (withBatch (initialSys scenario) 1 [261, 517, 5, 261]) 1).map
        (fun s' => s'.HPCC_Table 1)
      = (applyUpdates scenario (withBatch (initialSys scenario) 1 [5, 261, 261, 517]) 1).map
        (fun s' => s'.HPCC_Table 1) :=
  apply_order_independent scenario 1 (initialSys scenario) [261, 517, 5, 261]
    [5, 261, 261, 517] (by decide)

end ApplyOrder

/-! ## Partition invariance -/

section Partition

theorem rounds_ran (c : Params) (scheds : Nat → List Nat) (r q : Nat) (s t : Sys)
    (hv : ValidScheds c scheds) (hq : q < c.numNodes)
    (h : rounds c scheds r (setup c s) = some t) : t.ran q = genValue c q r := by
  rw [(rounds_spec c scheds r (setup c s) t h hv).1 q, if_pos hq]
  rfl

theorem genValue_congr (c1 c2 : Params) (q r : Nat) (hP : c1.POLY = c2.POLY)
    (hPer : c1.PERIOD = c2.PERIOD)
    (hG : c1.GlobalStartMyProc q = c2.GlobalStartMyProc q) :
    genValue c1 q r = genValue c2 q r := by
  unfold genValue
  rw [hP, hPer, hG]

/-- Owner times partition size plus local index is the value reduced to the table size. -/
theorem global_slot (c : Params) (k v : Nat) (hn : c.numNodes = 2 ^ k)
    (hint : c.numNodes < 2 ^ 31) (hk : c.logNumProcs = (k : Int)) (hle : k ≤ c.logTableSize)
    (hL : c.LocalTableSize = 2 ^ (c.logTableSize - k)) (hL31 : c.LocalTableSize ≤ 2 ^ 31) :
    remote_proc c v * (c.LocalTableSize : Int) + index c v
      = ((v &&& (2 ^ c.logTableSize - 1) : Nat) : Int) := by
  obtain ⟨e1, e2⟩ := owner_index_divmod c k v hn hint hk hle hL hL31
  rw [e1, e2, Nat.and_pow_two_sub_one_eq_mod]
  have hsum : c.logTableSize = (c.logTableSize - k) + k := (Nat.sub_add_cancel hle).symm
  have : v % 2 ^ c.logTableSize
      = v / 2 ^ (c.logTableSize - k) % 2 ^ k * c.LocalTableSize
        + v % 2 ^ (c.logTableSize - k) := by
    conv_lhs => rw [hsum, Nat.pow_add, Nat.mod_mul]
    rw [hL, Nat.add_comm, Nat.mul_comm]
  rw [this]
  push_cast
  rfl

/-- C7: partition invariance.  (1) The value a PE holds after `r` rounds is the same in any
two runs that agree on `POLY`, `PERIOD` and the PE's starting offset, whatever the node
counts, table sizes and reservation orders.  (2) For every value `v`, every `logTableSize`
and every `k ≤ logTableSize` with `numNodes = 2^k` (an `int`) and
`LocalTableSize = 2^(logTableSize-k) ≤ 2^31`:
`remote_proc(v) * LocalTableSize + index(v) = v AND (2^logTableSize - 1)`.  (3) Hence two
such partitions of the same table send `v` to the same global slot. -/
theorem partition_invariance :
    (∀ (c1 c2 : Params) (scheds1 scheds2 : Nat → List Nat) (s1 s2 t1 t2 : Sys) (r q : Nat),
      c1.POLY = c2.POLY → c1.PERIOD = c2.PERIOD →
      c1.GlobalStartMyProc q = c2.GlobalStartMyProc q →
      ValidScheds c1 scheds1 → ValidScheds c2 scheds2 →
      q < c1.numNodes → q < c2.numNodes →
      rounds c1 scheds1 r (setup c1 s1) = some t1 →
      rounds c2 scheds2 r (setup c2 s2) = some t2 →
      t1.ran q = t2.ran q) ∧
    (∀ (c : Params) (k v : Nat), c.numNodes = 2 ^ k → c.numNodes < 2 ^ 31 →
      c.logNumProcs = (k : Int) → k ≤ c.logTableSize →
      c.LocalTableSize = 2 ^ (c.logTableSize - k) → c.LocalTableSize ≤ 2 ^ 31 →
      remote_proc c v * (c.LocalTableSize : Int) + index c v
        = ((v &&& (2 ^ c.logTableSize - 1) : Nat) : Int)) ∧
    (∀ (c c' : Params) (k k' v : Nat), c.logTableSize = c'.logTableSize →
      c.numNodes = 2 ^ k → c.numNodes < 2 ^ 31 →
      c.logNumProcs = (k : Int) → k ≤ c.logTableSize →
      c.LocalTableSize = 2 ^ (c.logTableSize - k) → c.LocalTableSize ≤ 2 ^ 31 →
      c'.numNodes = 2 ^ k' → c'.numNodes < 2 ^ 31 →
      c'.logNumProcs = (k' : Int) → k' ≤ c'.logTableSize →
      c'.LocalTableSize = 2 ^ (c'.logTableSize - k') → c'.LocalTableSize ≤ 2 ^ 31 →
      remote_proc c v * (c.LocalTableSize : Int) + index c v
        = remote_proc c' v * (c'.LocalTableSize : Int) + index c' v) := by
  refine ⟨?_, ?_, ?_⟩
  · intro c1 c2 scheds1 scheds2 s1 s2 t1 t2 r q hP hPer hG hv1 hv2 hq1 hq2 h1 h2
    rw [rounds_ran c1 scheds1 r q s1 t1 hv1 hq1 h1, rounds_ran c2 scheds2 r q s2 t2 hv2 hq2 h2]
    exact genValue_congr c1 c2 q r hP hPer hG
  · intro c k v hn hint hk hle hL hL31
    exact global_slot c k v hn hint hk hle hL hL31
  · intro c c' k k' v hlog hn hint hk hle hL hL31 hn' hint' hk' hle' hL' hL31'
    rw [global_slot c k v hn hint hk hle hL hL31,
      global_slot c' k' v hn' hint' hk' hle' hL' hL31', hlog]

/-- Instance of C7: the scenario of the specification on 4 and on 8 PEs, PE 1 after 5 rounds,
and the value 123456789. -/
theorem partition_invariance_witness :
    (∃ t1 t2,
      rounds scenario (inOrder scenario) 5 (setup scenario (initialSys scenario)) = some t1 ∧
      rounds (repartition scenario 3) (inOrder (repartition scenario 3)) 5
        (setup (repartition scenario 3) (initialSys scenario)) = some t2 ∧
      t1.ran 1 = t2.ran 1) ∧
    remote_proc scenario 123456789 * (scenario.LocalTableSize : Int) + index scenario 123456789
      = ((123456789 &&& (2 ^ scenario.logTableSize - 1) : Nat) : Int) ∧
    remote_proc scenario 123456789 * (scenario.LocalTableSize : Int) + index scenario 123456789
      = remote_proc (repartition scenario 3) 123456789
          * ((repartition scenario 3).LocalTableSize : Int)
        + index (repartition scenario 3) 123456789 := by
  obtain ⟨t1, h1⟩ := rounds_isSome scenario (inOrder scenario) 5
    (setup scenario (initialSys scenario)) (by decide) (by decide) (by decide) (by decide)
    (fun _ => List.Perm.refl _)
  obtain ⟨t2, h2⟩ := rounds_isSome (repartition scenario 3) (inOrder (repartition scenario 3)) 5
    (setup (repartition scenario 3) (initialSys scenario)) (by decide) (by decide)
    (by decide) (by decide) (fun _ => List.Perm.refl _)
  refine ⟨⟨t1, t2, h1, h2, ?_⟩, ?_, ?_⟩
  · exact partition_invariance.1 scenario (repartition scenario 3) _ _ _ _ t1 t2 5 1 rfl rfl rfl
      (fun _ => List.Perm.refl _) (fun _ => List.Perm.refl _) (by decide) (by decide) h1 h2
  · exact partition_invariance.2.1 scenario 2 123456789 (by decide) (by decide) (by decide)
      (by decide) (by decide) (by decide)
  · exact partition_invariance.2.2 scenario (repartition scenario 3) 2 3 123456789 rfl
      (by decide) (by decide) (by decide) (by decide) (by decide) (by decide)
      (by decide) (by decide) (by decide) (by decide) (by decide) (by decide)

end Partition

/-! ## Argument reduction in `starts` -/

section Reduction

theorem reducePeriod_spec (PERIOD : Nat) (hP : 0 < PERIOD) (fuel n : Nat) (hf : n ≤ fuel) :
    reducePeriod PERIOD fuel n ≤ PERIOD ∧
    reducePeriod PERIOD fuel n % PERIOD = n % PERIOD ∧
    (n ≠ 0 → reducePeriod PERIOD fuel n ≠ 0) := by
  induction fuel generalizing n with
  | zero =>
    have : n = 0 := Nat.le_zero.mp hf
    subst this
    exact ⟨Nat.zero_le _, rfl, fun h => h⟩
  | succ fuel ih =>
    unfold reducePeriod
    by_cases h : n > PERIOD
    · rw [if_pos h]
      obtain ⟨a, b, d⟩ := ih (n - PERIOD) (by omega)
      refine ⟨a, ?_, fun _ => d (by omega)⟩
      rw [b]
      exact (Nat.mod_eq_sub_mod (Nat.le_of_lt h)).symm
    · rw [if_neg h]
      exact ⟨Nat.le_of_not_lt h, rfl, fun h0 => h0⟩

theorem starts_reduced (POLY PERIOD n : Nat) (h : reducePeriod PERIOD n n ≤ PERIOD) :
    starts POLY PERIOD n = starts POLY PERIOD (reducePeriod PERIOD n n) := by
  unfold starts
  simp only [reducePeriod_le PERIOD _ _ h]

/-- When `starts(PERIOD) = 1`, the jump-ahead only depends on its argument modulo `PERIOD`. -/
theorem starts_mod (POLY PERIOD : Nat) (hP : 0 < PERIOD)
    (h1 : starts POLY PERIOD PERIOD = 1) (n : Nat) :
    starts POLY PERIOD n = starts POLY PERIOD (n % PERIOD) := by
  obtain ⟨a, b, _⟩ := reducePeriod_spec PERIOD hP n n (Nat.le_refl n)
  rw [starts_reduced POLY PERIOD n a]
  by_cases e : reducePeriod PERIOD n n = PERIOD
  · rw [e] at b
    rw [e, h1, ← b, Nat.mod_self]
    rfl
  · have hlt : reducePeriod PERIOD n n < PERIOD := Nat.lt_of_le_of_ne a e
    rw [← b, Nat.mod_eq_of_lt hlt]

/-- C8: argument reduction in `starts`, for `POLY = 0x7` and for both values of `PERIOD`
(the HPCC header's 1317624576693539401 and the specification's 2^63 - 1): for every `n`,
`starts(n) = starts(n mod PERIOD)`, `starts(0) = 1` and `starts(PERIOD) = starts(0) = 1`.
The reduction loop leaves `n = PERIOD` as it is, and the jump-ahead of `PERIOD` steps
returns `1`. -/
theorem starts_argument_reduction :
    ((∀ n, starts POLY_HPCC PERIOD_HPCC n = starts POLY_HPCC PERIOD_HPCC (n % PERIOD_HPCC)) ∧
      starts POLY_HPCC PERIOD_HPCC 0 = 1 ∧
      starts POLY_HPCC PERIOD_HPCC PERIOD_HPCC = starts POLY_HPCC PERIOD_HPCC 0) ∧
    ((∀ n, starts POLY_HPCC PERIOD_SPEC n = starts POLY_HPCC PERIOD_SPEC (n % PERIOD_SPEC)) ∧
      starts POLY_HPCC PERIOD_SPEC 0 = 1 ∧
      starts POLY_HPCC PERIOD_SPEC PERIOD_SPEC = starts POLY_HPCC PERIOD_SPEC 0) := by
  have a1 : starts POLY_HPCC PERIOD_HPCC PERIOD_HPCC = 1 := by decide!
  have a2 : starts POLY_HPCC PERIOD_SPEC PERIOD_SPEC = 1 := by decide!
  refine ⟨⟨starts_mod _ _ (by decide) a1, rfl, a1⟩, ⟨starts_mod _ _ (by decide) a2, rfl, a2⟩⟩

end Reduction

/-! ## Round count and configuration checks -/

section RoundCount

/-- C9 (what the code does at the failing inputs): `niterate` is an `int`, so
`ProcNumUpdates = 2^31` becomes `-2^31` and the loop of line 250 runs zero times: the run
returns the state right after the setup; `ProcNumUpdates = 2^32 + 3` becomes 3 rounds. -/
theorem round_count_truncated :
    niterate largeRun = -2 ^ 31 ∧ roundsExecuted largeRun = 0 ∧
    (∀ scheds s, Power2NodesRandomAccessUpdate largeRun scheds s = some (setup largeRun s)) ∧
    roundsExecuted largerRun = 3 := by
  have h0 : roundsExecuted largeRun = 0 := by decide
  refine ⟨by decide, h0, ?_, by decide⟩
  intro scheds s
  unfold Power2NodesRandomAccessUpdate
  rw [h0]
  rfl

/-- Within the range of `int` the number of rounds is `ProcNumUpdates`: every PE makes
exactly that many generator steps. -/
theorem round_count_in_range (c : Params) (scheds : Nat → List Nat) (s s' : Sys) (q : Nat)
    (h0 : 0 ≤ c.ProcNumUpdates) (h1 : c.ProcNumUpdates < 2 ^ 31)
    (hv : ValidScheds c scheds) (hq : q < c.numNodes)
    (h : Power2NodesRandomAccessUpdate c scheds s = some s') :
    roundsExecuted c = c.ProcNumUpdates.toNat ∧
    s'.ran q = genValue c q c.ProcNumUpdates.toNat := by
  have e := roundsExecuted_of_range c h0 h1
  refine ⟨e, ?_⟩
  rw [(run_spec c scheds s s' h hv).1 q hq, e]

end RoundCount

section Validation

theorem three_not_pow2 : ¬ ∃ k : Nat, (3 : Nat) = 2 ^ k := by
  rintro ⟨k, hk⟩
  rcases k with _ | _ | k
  · simp at hk
  · simp at hk
  · have : 2 ^ (k + 1 + 1) = 4 * 2 ^ k := by ring
    omega

/-- C10 (counterexample): with `numNodes = 3`, which is not a power of two, the routine
reports nothing: the run completes and slot 0 of PE 0 has changed. -/
theorem no_configuration_check :
    (¬ ∃ k : Nat, threeNodes.numNodes = 2 ^ k) ∧
    ∃ s', Power2NodesRandomAccessUpdate threeNodes (inOrder threeNodes) (initialSys threeNodes)
        = some s' ∧
      s'.HPCC_Table 0 0 ≠ (initialSys threeNodes).HPCC_Table 0 0 := by
  refine ⟨three_not_pow2, ?_⟩
  obtain ⟨s', hs'⟩ := run_isSome threeNodes (inOrder threeNodes) (initialSys threeNodes)
    (by decide) (by decide) (by decide) (by decide) (fun _ => List.Perm.refl _)
  refine ⟨s', hs', ?_⟩
  rw [(run_spec threeNodes (inOrder threeNodes) (initialSys threeNodes) s' hs'
    (fun _ => List.Perm.refl _)).2 0 (by decide) 0]
  decide

/-- C10 (amended): the routine validates nothing.  For every configuration with a shift count
`logTableSize - logNumProcs` in `[0, 64)`, `numNodes ≤ MAXTHREADS` and
`1 ≤ LocalTableSize ≤ 2^31`, whether `numNodes` is a power of two or not, the run completes
and XORs every generated value into the slot that the masks of lines 261 and 277 select. -/
theorem run_without_validation (c : Params) (scheds : Nat → List Nat) (s : Sys)
    (h1 : 0 ≤ logTableLocal c ∧ logTableLocal c < 64) (h2 : c.numNodes ≤ MAXTHREADS)
    (h3 : 1 ≤ c.LocalTableSize) (h4 : c.LocalTableSize ≤ 2 ^ 31)
    (hv : ValidScheds c scheds) :
    ∃ s', Power2NodesRandomAccessUpdate c scheds s = some s' ∧
      ∀ p, p < c.numNodes → ∀ j, s'.HPCC_Table p j = s.HPCC_Table p j ^^^
        xorList ((streamValues c (roundsExecuted c)).filter (addressed c p j)) := by
  obtain ⟨s', hs'⟩ := run_isSome c scheds s h1 h2 h3 h4 hv
  exact ⟨s', hs', (run_spec c scheds s s' hs' hv).2⟩

/-- Instance of the amended C10 on three PEs. -/
theorem run_without_validation_witness :
    ∃ s', Power2NodesRandomAccessUpdate threeNodes (inOrder threeNodes) (initialSys threeNodes)
        = some s' ∧
      ∀ p, p < threeNodes.numNodes → ∀ j,
        s'.HPCC_Table p j = (initialSys threeNodes).HPCC_Table p j ^^^
          xorList ((streamValues threeNodes (roundsExecuted threeNodes)).filter
            (addressed threeNodes p j)) :=
  run_without_validation threeNodes (inOrder threeNodes) (initialSys threeNodes)
    (by decide) (by decide) (by decide) (by decide) (fun _ => List.Perm.refl _)

end Validation

/-! ## The local index of the apply step -/

section LocalIndex

/-- C11 (what the code does at the failing input): with `LocalTableSize = 2^32` the `int`
`nlocalm1` is `-1`, so the mask keeps all 64 bits and the `int` `index` of the value
`2^31 + 5` is `-2147483643`, not `(2^31 + 5) AND (LocalTableSize - 1) = 2^31 + 5`; the
access `HPCC_Table[index]` is outside the table. -/
theorem index_truncated :
    nlocalm1 hugeTable = -1 ∧
    index hugeTable (2 ^ 31 + 5) = -2147483643 ∧
    (2 ^ 31 + 5) &&& (hugeTable.LocalTableSize - 1) = 2 ^ 31 + 5 ∧
    (applyOne hugeTable 0 (withBatch (initialSys hugeTable) 0 [2 ^ 31 + 5]) 0).isNone = true := by
  refine ⟨by decide, by decide, by decide, ?_⟩
  decide

end LocalIndex

/-! ## Stream position -/

section StreamPosition

theorem pw_add (POLY a b : Nat) : (advance POLY)^[b] (pw POLY a) = pw POLY (a + b) := by
  unfold pw
  rw [Nat.add_comm, Function.iterate_add_apply]

/-- The value a PE holds after `r` generator steps is the jump-ahead to `4*s + r`. -/
theorem genValue_eq_starts (c : Params) (q r : Nat) (hP : c.POLY < 2 ^ 64)
    (hPer : c.PERIOD < 2 ^ 63) (hpos : 4 * c.GlobalStartMyProc q + r ≤ c.PERIOD) :
    genValue c q r = starts c.POLY c.PERIOD (4 * c.GlobalStartMyProc q + r) := by
  unfold genValue
  have h64 : 4 * c.GlobalStartMyProc q < 2 ^ 64 := by omega
  rw [Nat.mod_eq_of_lt h64, starts_eq_pw _ _ _ hP hPer (by omega),
    starts_eq_pw _ _ _ hP hPer hpos, pw_add]

/-- The route phase of a round that starts from the state `t`, when the limits of the routine
hold. -/
theorem routePhase_roundStart_isSome (c : Params) (sched : List Nat) (t : Sys)
    (h1 : 0 ≤ logTableLocal c ∧ logTableLocal c < 64) (h2 : c.numNodes ≤ MAXTHREADS)
    (hs : sched.Perm (List.range c.numNodes)) :
    ∃ m, routePhase c sched (roundStart t) = some m ∧ ∀ p, m.count p ≤ c.numNodes := by
  have hlen : sched.length = c.numNodes := by rw [hs.length_eq, List.length_range]
  have hM : MAXTHREADS = 256 := rfl
  by_cases h0 : c.numNodes = 0
  · have : sched = [] := List.length_eq_zero.mp (by rw [hlen, h0])
    rw [this]
    exact ⟨roundStart t, rfl, fun p => Nat.zero_le _⟩
  · obtain ⟨m, hm, hc⟩ := routePhase_isSome c sched (roundStart t) 0 h1 (by omega)
      (by omega) (fun p => Nat.le_refl 0) (by omega)
    refine ⟨m, hm, fun p => ?_⟩
    have := hc p
    omega

theorem roundsExecuted_ge (c : Params) (r : Nat) (h0 : 0 ≤ c.ProcNumUpdates)
    (h1 : c.ProcNumUpdates < 2 ^ 31) (hr : (r : Int) ≤ c.ProcNumUpdates) :
    r ≤ roundsExecuted c := by
  rw [roundsExecuted_of_range c h0 h1]
  omega

/-- C12: stream position per round.  For every starting index `s = GlobalStartMyProc` of a
PE and every round `r = k + 1` with `4*s + r ≤ PERIOD` (a 64-bit `POLY`, `PERIOD < 2^63`):
in the route phase of round `r` the PE holds, and has put into its owner's buffer at its
reserved slot, exactly `starts(4*s + r)`; within the limits of the routine that route phase
is reached; and for `0 ≤ ProcNumUpdates < 2^31` every `r` with `1 ≤ r ≤ ProcNumUpdates` is a
round the run executes. -/
theorem stream_position (c : Params) (scheds : Nat → List Nat) (s0 : Sys) (q k : Nat)
    (hP : c.POLY < 2 ^ 64) (hPer : c.PERIOD < 2 ^ 63) (hv : ValidScheds c scheds)
    (hq : q < c.numNodes)
    (hpos : 4 * c.GlobalStartMyProc q + (k + 1) ≤ c.PERIOD) :
    (∀ t m, rounds c scheds k (setup c s0) = some t →
      routePhase c (scheds k) (roundStart t) = some m →
      m.ran q = starts c.POLY c.PERIOD (4 * c.GlobalStartMyProc q + (k + 1)) ∧
      m.updates (m.remote_proc q).toNat (m.remotecount q)
        = starts c.POLY c.PERIOD (4 * c.GlobalStartMyProc q + (k + 1))) ∧
    ((0 ≤ logTableLocal c ∧ logTableLocal c < 64) → c.numNodes ≤ MAXTHREADS →
      1 ≤ c.LocalTableSize → c.LocalTableSize ≤ 2 ^ 31 →
      ∃ t m, rounds c scheds k (setup c s0) = some t ∧
        routePhase c (scheds k) (roundStart t) = some m) ∧
    (0 ≤ c.ProcNumUpdates → c.ProcNumUpdates < 2 ^ 31 →
      ((k + 1 : Nat) : Int) ≤ c.ProcNumUpdates → k + 1 ≤ roundsExecuted c) := by
  refine ⟨?_, ?_, ?_⟩
  · intro t m ht hm
    have hnd : (scheds k).Nodup := (hv k).nodup_iff.mpr (List.nodup_range _)
    have hmem : q ∈ scheds k := by rw [(hv k).mem_iff, List.mem_range]; exact hq
    have hran : m.ran q = starts c.POLY c.PERIOD (4 * c.GlobalStartMyProc q + (k + 1)) := by
      rw [(routePhase_spec c (scheds k) (roundStart t) m hm hnd).2.1 q, if_pos hmem]
      have : (roundStart t).ran q = t.ran q := rfl
      rw [this, rounds_ran c scheds k q s0 t hv hq ht,
        ← genValue_eq_starts c q (k + 1) hP hPer hpos]
      unfold genValue
      rw [Function.iterate_succ_apply']
    refine ⟨hran, ?_⟩
    have hR := reserved_routePhase c (scheds k) [] (roundStart t) m (by simpa using hnd) hm
      (reserved_start c t)
    rw [List.nil_append] at hR
    rw [hR.2.2.2 q hmem, hran]
  · intro a b d e
    obtain ⟨t, ht⟩ := rounds_isSome c scheds k (setup c s0) a b d e hv
    obtain ⟨m, hm, _⟩ := routePhase_roundStart_isSome c (scheds k) t a b (hv k)
    exact ⟨t, m, ht, hm⟩
  · intro h0 h1 hr
    exact roundsExecuted_ge c (k + 1) h0 h1 hr

/-- Instance of C12 at the scenario of the specification: PE 1 (start index 256) in
round 7. -/
theorem stream_position_witness :
    (∀ t m, rounds scenario (inOrder scenario) 6 (setup scenario (initialSys scenario)) = some t →
      routePhase scenario (inOrder scenario 6) (roundStart t) = some m →
      m.ran 1 = starts scenario.POLY scenario.PERIOD (4 * scenario.GlobalStartMyProc 1 + (6 + 1)) ∧
      m.updates (m.remote_proc 1).toNat (m.remotecount 1)
        = starts scenario.POLY scenario.PERIOD (4 * scenario.GlobalStartMyProc 1 + (6 + 1))) ∧
    ((0 ≤ logTableLocal scenario ∧ logTableLocal scenario < 64) →
      scenario.numNodes ≤ MAXTHREADS →
      1 ≤ scenario.LocalTableSize → scenario.LocalTableSize ≤ 2 ^ 31 →
      ∃ t m, rounds scenario (inOrder scenario) 6 (setup scenario (initialSys scenario)) = some t ∧
        routePhase scenario (inOrder scenario 6) (roundStart t) = some m) ∧
    (0 ≤ scenario.ProcNumUpdates → scenario.ProcNumUpdates < 2 ^ 31 →
      ((6 + 1 : Nat) : Int) ≤ scenario.ProcNumUpdates → 6 + 1 ≤ roundsExecuted scenario) :=
  stream_position scenario (inOrder scenario) (initialSys scenario) 1 6 (by decide) (by decide)
    (fun _ => List.Perm.refl _) (by decide) (by decide)

end StreamPosition

/-! ## Frame of the steps -/

section Frame

/-- Everything a route step leaves as it is. -/
theorem route_frame (c : Params) (s s' : Sys) (q : Nat) (h : route c s q = some s') :
    s'.HPCC_Table = s.HPCC_Table ∧
    (∀ q', q' ≠ q → s'.ran q' = s.ran q' ∧ s'.remote_proc q' = s.remote_proc q' ∧
      s'.remotecount q' = s.remotecount q') ∧
    (∀ p, p ≠ (s'.remote_proc q).toNat → s'.count p = s.count p ∧
      s'.updates p = s.updates p) := by
  obtain ⟨_, _, _, rfl⟩ := route_eq_some c s s' q h
  refine ⟨rfl, ?_, ?_⟩
  · intro q' hq
    simp only
    rw [Function.update_noteq hq, Function.update_noteq hq, Function.update_noteq hq]
    exact ⟨rfl, rfl, rfl⟩
  · intro p hp
    simp only [Function.update_same] at hp ⊢
    rw [Function.update_noteq hp, Function.update_noteq hp]
    exact ⟨rfl, rfl⟩

/-- C13: table frame.  (1) A route step of PE `q` (generator step, counter reservation and
buffer write at the owner) leaves the table of every PE unchanged; it changes only the
generator and the locals of `q` and the counter and buffer of the owner.  (2) The apply step
of PE `p` changes only the table and the buffer of `p`: the tables and buffers of all other
PEs, all generators, counters and locals stay as they are.  (3) Both steps are defined within
the limits of the routine. -/
theorem table_frame (c : Params) :
    (∀ (s s' : Sys) (q : Nat), route c s q = some s' →
      s'.HPCC_Table = s.HPCC_Table ∧
      (∀ q', q' ≠ q → s'.ran q' = s.ran q' ∧ s'.remote_proc q' = s.remote_proc q' ∧
        s'.remotecount q' = s.remotecount q') ∧
      (∀ p, p ≠ (s'.remote_proc q).toNat → s'.count p = s.count p ∧
        s'.updates p = s.updates p)) ∧
    (∀ (s s' : Sys) (p : Nat), applyUpdates c s p = some s' →
      (∀ p', p' ≠ p → s'.HPCC_Table p' = s.HPCC_Table p' ∧ s'.updates p' = s.updates p') ∧
      s'.ran = s.ran ∧ s'.count = s.count ∧
      s'.remote_proc = s.remote_proc ∧ s'.remotecount = s.remotecount) ∧
    (∀ (s : Sys) (q : Nat), (0 ≤ logTableLocal c ∧ logTableLocal c < 64) →
      1 ≤ c.numNodes → c.numNodes < 2 ^ 31 → (∀ p, s.count p < MAXTHREADS) →
      ∃ s', route c s q = some s') ∧
    (∀ (s : Sys) (p : Nat), 1 ≤ c.LocalTableSize → c.LocalTableSize ≤ 2 ^ 31 →
      s.count p ≤ MAXTHREADS → ∃ s', applyUpdates c s p = some s') := by
  refine ⟨?_, ?_, ?_, ?_⟩
  · intro s s' q h
    exact route_frame c s s' q h
  · intro s s' p h
    obtain ⟨_, hto, hr, hc, hrp, hrc, huo, _⟩ := applyUpdates_spec c p s s' h
    exact ⟨fun p' hp => ⟨hto p' hp, huo p' hp⟩, hr, hc, hrp, hrc⟩
  · intro s q h1 h2 h3 hc
    exact route_isSome c s q h1 (remote_proc_range c _ h2 h3) (hc _)
  · intro s p h1 h2 hc
    exact applyUpdates_isSome c p s h1 h2 hc

/-- Instance of C13 at the scenario of the specification: the route step of PE 1 from the
initial state, and the apply step of PE 2 on a delivered batch. -/
theorem table_frame_witness :
    (∃ s', route scenario (initialSys scenario) 1 = some s' ∧
      s'.HPCC_Table = (initialSys scenario).HPCC_Table) ∧
    (∃ s', applyUpdates scenario (withBatch (initialSys scenario) 2 [261, 517]) 2 = some s' ∧
      ∀ p', p' ≠ 2 →
        s'.HPCC_Table p' = (withBatch (initialSys scenario) 2 [261, 517]).HPCC_Table p' ∧
        s'.updates p' = (withBatch (initialSys scenario) 2 [261, 517]).updates p') := by
  obtain ⟨s1, h1⟩ := (table_frame scenario).2.2.1 (initialSys scenario) 1 (by decide)
    (by decide) (by decide) (fun _ => Nat.zero_lt_succ 255)
  obtain ⟨s2, h2⟩ := (table_frame scenario).2.2.2
    (withBatch (initialSys scenario) 2 [261, 517]) 2 (by decide) (by decide) (by decide)
  exact ⟨⟨s1, h1, ((table_frame scenario).1 _ s1 1 h1).1⟩,
    ⟨s2, h2, ((table_frame scenario).2.1 _ s2 2 h2).1⟩⟩

end Frame

/-! ## The pending buffer between rounds -/

section Buffer

theorem bufferZero_setup (c : Params) (s : Sys) : BufferZero c (setup c s) := by
  intro p _ j hj
  unfold setup
  simp only
  rw [if_pos hj]

theorem bufferClean_roundStart (c : Params) (s : Sys) (h : BufferZero c s) :
    BufferClean c (roundStart s) := by
  intro p hp j _ hj
  exact h p hp j hj

theorem bufferClean_route (c : Params) (s s' : Sys) (q : Nat) (h : route c s q = some s')
    (hI : BufferClean c s) : BufferClean c s' := by
  obtain ⟨_, _, _, rfl⟩ := route_eq_some c s s' q h
  intro p hp j hj hj2
  simp only at hj ⊢
  by_cases e : p = (remote_proc c (advance c.POLY (s.ran q))).toNat
  · rw [← e] at hj ⊢
    rw [Function.update_same] at hj ⊢
    have hne : j ≠ s.count p := by omega
    rw [Function.update_noteq hne]
    exact hI p hp j (by omega) hj2
  · rw [Function.update_noteq e] at hj ⊢
    exact hI p hp j hj hj2

theorem bufferClean_routePhase (c : Params) (l : List Nat) (s s' : Sys)
    (h : routePhase c l s = some s') (hI : BufferClean c s) : BufferClean c s' := by
  induction l generalizing s with
  | nil =>
    rw [routePhase_nil] at h
    cases h
    exact hI
  | cons q l ih =>
    obtain ⟨s1, hq, hrest⟩ := (routePhase_cons c q l s s').mp h
    exact ih s1 hrest (bufferClean_route c s s1 q hq hI)

theorem bufferZero_applyPhase (c : Params) (s s' : Sys) (h : applyPhase c s = some s')
    (hI : BufferClean c s) : BufferZero c s' := by
  intro p hp j hj
  rw [(applyPhase_spec c s s' h).2.2.2.2.2.2.2 p hp j]
  by_cases e : j < s.count p
  · rw [if_pos e]
  · rw [if_neg e]
    exact hI p hp j (Nat.le_of_not_lt e) hj

theorem bufferZero_oneRound (c : Params) (sched : List Nat) (s s' : Sys)
    (h : oneRound c sched s = some s') (hI : BufferZero c s) : BufferZero c s' := by
  obtain ⟨m, hr, ha⟩ := oneRound_eq_some c sched s s' h
  exact bufferZero_applyPhase c m s' ha
    (bufferClean_routePhase c sched (roundStart s) m hr (bufferClean_roundStart c s hI))

theorem bufferZero_rounds (c : Params) (scheds : Nat → List Nat) (k : Nat) (s t : Sys)
    (h : rounds c scheds k (setup c s) = some t) : BufferZero c t := by
  induction k generalizing t with
  | zero =>
    unfold rounds at h
    cases h
    exact bufferZero_setup c s
  | succ k ih =>
    obtain ⟨t1, h1, h2⟩ := rounds_succ_eq_some c scheds k (setup c s) t h
    exact bufferZero_oneRound c (scheds k) t1 t h2 (ih t1 h1)

/-- C14: pending-buffer invariant.  In every run, for every round `k + 1` and the state `t`
in which that round begins: (1) when the route phase begins (after `count = 0` and the
barrier) the counter of every PE is 0 and each of its `MAXTHREADS` buffer slots holds 0;
(2) at the barrier after the route phase no slot at or beyond the counter has been written;
(3) after the apply phase every buffer slot holds 0 again; (4) with `numNodes ≤ MAXTHREADS`,
within the limits of the routine, the round is reached and completes. -/
theorem pending_buffer_invariant (c : Params) (scheds : Nat → List Nat) (s0 : Sys) (k : Nat)
    (hv : ValidScheds c scheds) :
    (∀ t, rounds c scheds k (setup c s0) = some t →
      (∀ p, p < c.numNodes → (roundStart t).count p = 0 ∧
        ∀ j, j < MAXTHREADS → (roundStart t).updates p j = 0) ∧
      (∀ m, routePhase c (scheds k) (roundStart t) = some m →
        ∀ p, p < c.numNodes → ∀ j, m.count p ≤ j → j < MAXTHREADS → m.updates p j = 0) ∧
      (∀ t', oneRound c (scheds k) t = some t' →
        ∀ p, p < c.numNodes → ∀ j, j < MAXTHREADS → t'.updates p j = 0)) ∧
    (c.numNodes ≤ MAXTHREADS → (0 ≤ logTableLocal c ∧ logTableLocal c < 64) →
      1 ≤ c.LocalTableSize → c.LocalTableSize ≤ 2 ^ 31 →
      ∃ t t', rounds c scheds k (setup c s0) = some t ∧
        oneRound c (scheds k) t = some t') := by
  constructor
  · intro t ht
    have hz := bufferZero_rounds c scheds k s0 t ht
    refine ⟨fun p hp => ⟨rfl, fun j hj => hz p hp j hj⟩, ?_, ?_⟩
    · intro m hm
      exact bufferClean_routePhase c (scheds k) (roundStart t) m hm
        (bufferClean_roundStart c t hz)
    · intro t' ht'
      exact bufferZero_oneRound c (scheds k) t t' ht' hz
  · intro b a d e
    obtain ⟨t, ht⟩ := rounds_isSome c scheds k (setup c s0) a b d e hv
    obtain ⟨t', ht'⟩ := oneRound_isSome c (scheds k) t a b d e (hv k)
    exact ⟨t, t', ht, ht'⟩

/-- Instance of C14 at the scenario of the specification, round 4. -/
theorem pending_buffer_invariant_witness :
    (∀ t, rounds scenario (inOrder scenario) 3 (setup scenario (initialSys scenario)) = some t →
      (∀ p, p < scenario.numNodes → (roundStart t).count p = 0 ∧
        ∀ j, j < MAXTHREADS → (roundStart t).updates p j = 0) ∧
      (∀ m, routePhase scenario (inOrder scenario 3) (roundStart t) = some m →
        ∀ p, p < scenario.numNodes → ∀ j, m.count p ≤ j → j < MAXTHREADS →
          m.updates p j = 0) ∧
      (∀ t', oneRound scenario (inOrder scenario 3) t = some t' →
        ∀ p, p < scenario.numNodes → ∀ j, j < MAXTHREADS → t'.updates p j = 0)) ∧
    (scenario.numNodes ≤ MAXTHREADS →
      (0 ≤ logTableLocal scenario ∧ logTableLocal scenario < 64) →
      1 ≤ scenario.LocalTableSize → scenario.LocalTableSize ≤ 2 ^ 31 →
      ∃ t t', rounds scenario (inOrder scenario) 3 (setup scenario (initialSys scenario))
          = some t ∧
        oneRound scenario (inOrder scenario 3) t = some t') :=
  pending_buffer_invariant scenario (inOrder scenario) (initialSys scenario) 3
    (fun _ => List.Perm.refl _)

end Buffer

/-! ## Capacity of the pending buffer -/

section Capacity

/-- Lines 271-272 are the fetch-and-add followed by the put. -/
theorem reserveAndPut_eq_bind (c : Params) (s : Sys) (q : Nat) (rp : Int) :
    reserveAndPut c s q rp = (fetchAdd c s q rp).bind fun t => put t q := by
  unfold reserveAndPut fetchAdd
  by_cases h : 0 ≤ rp ∧ rp < (c.numNodes : Int)
  · rw [if_pos h, if_pos h, Option.some_bind]
    unfold put
    simp only [Function.update_same]
  · rw [if_neg h, if_neg h]
    rfl

theorem sum_update_succ (f : Nat → Nat) (n t : Nat) (ht : t < n) :
    ∑ p in Finset.range n, Function.update f t (f t + 1) p
      = ∑ p in Finset.range n, f p + 1 := by
  have hm : t ∈ Finset.range n := Finset.mem_range.mpr ht
  rw [Finset.sum_update_of_mem hm, Finset.sum_eq_add_sum_diff_singleton hm f]
  ring

theorem route_count_sum (c : Params) (s s' : Sys) (q : Nat) (h : route c s q = some s') :
    ∑ p in Finset.range c.numNodes, s'.count p
      = ∑ p in Finset.range c.numNodes, s.count p + 1 := by
  obtain ⟨_, h2, _, rfl⟩ := route_eq_some c s s' q h
  simp only
  apply sum_update_succ
  have := Int.toNat_of_nonneg h2.1
  omega

theorem routePhase_count_sum (c : Params) (l : List Nat) (s s' : Sys)
    (h : routePhase c l s = some s') :
    ∑ p in Finset.range c.numNodes, s'.count p
      = ∑ p in Finset.range c.numNodes, s.count p + l.length := by
  induction l generalizing s with
  | nil =>
    rw [routePhase_nil] at h
    cases h
    simp
  | cons q l ih =>
    obtain ⟨s1, hq, hrest⟩ := (routePhase_cons c q l s s').mp h
    rw [ih s1 hrest, route_count_sum c s s1 q hq, List.length_cons]
    ring

/-- After the route phase of a whole round the counters sum to the number of PEs and every
reserved slot lies below that number. -/
theorem routePhase_capacity (c : Params) (sched : List Nat) (s m : Sys)
    (hs : sched.Perm (List.range c.numNodes))
    (h : routePhase c sched (roundStart s) = some m) :
    ∑ p in Finset.range c.numNodes, m.count p = c.numNodes ∧
    ∀ q, q < c.numNodes → m.remotecount q < c.numNodes := by
  have hnd : sched.Nodup := hs.nodup_iff.mpr (List.nodup_range _)
  have hsum : ∑ p in Finset.range c.numNodes, m.count p = c.numNodes := by
    rw [routePhase_count_sum c sched (roundStart s) m h, hs.length_eq, List.length_range]
    simp [roundStart]
  refine ⟨hsum, ?_⟩
  intro q hq
  have hmem : q ∈ sched := by rw [hs.mem_iff, List.mem_range]; exact hq
  have hR := reserved_routePhase c sched [] (roundStart s) m (by simpa using hnd) h
    (reserved_start c s)
  rw [List.nil_append] at hR
  obtain ⟨r1, _, r3, _⟩ := hR
  have hrp := r1 q hmem
  have hlt : m.remotecount q < m.count (m.remote_proc q).toNat := by
    apply (r3 _ _).mpr
    exact ⟨q, hmem, (Int.toNat_of_nonneg hrp.1).symm, rfl⟩
  have hp : (m.remote_proc q).toNat < c.numNodes := by
    have := Int.toNat_of_nonneg hrp.1
    omega
  have hle : m.count (m.remote_proc q).toNat ≤ ∑ p in Finset.range c.numNodes, m.count p :=
    Finset.single_le_sum (f := m.count) (fun _ _ => Nat.zero_le _) (Finset.mem_range.mpr hp)
  rw [hsum] at hle
  exact Nat.lt_of_lt_of_le hlt hle

theorem pending_length (s : Sys) (p : Nat) : (pending s p).length = s.count p := by
  simp [pending]

/-- When all values of a route phase have the same owner, the counter of the owner is the
number of PEs that have routed. -/
theorem routePhase_same_owner (c : Params) (l : List Nat) (s t : Sys) (p0 : Nat)
    (hl : l.Nodup) (h : routePhase c l (roundStart s) = some t)
    (hown : ∀ q, q ∈ l → remote_proc c (advance c.POLY (s.ran q)) = (p0 : Int)) :
    t.count p0 = l.length := by
  have hp := (routePhase_spec c l (roundStart s) t h hl).2.2 p0
  have hlen := congrArg List.length hp
  rw [pending_length, pending_roundStart, List.nil_append] at hlen
  rw [hlen, List.filter_eq_self.mpr, List.length_map]
  intro v hv
  obtain ⟨q, hq, rfl⟩ := List.mem_map.mp hv
  have : (roundStart s).ran q = s.ran q := rfl
  rw [this]
  exact decide_eq_true (hown q hq)

theorem routePhase_cons_none (c : Params) (q : Nat) (l : List Nat) (t : Sys)
    (h : route c t q = none) : routePhase c (q :: l) t = none := by
  cases hopt : routePhase c (q :: l) t with
  | none => rfl
  | some r =>
    obtain ⟨s1, hs1, _⟩ := (routePhase_cons c q l t r).mp hopt
    rw [h] at hs1
    cases hs1

theorem routePhase_append_none (c : Params) (l1 l2 : List Nat) (s t : Sys)
    (h1 : routePhase c l1 s = some t) (h2 : routePhase c l2 t = none) :
    routePhase c (l1 ++ l2) s = none := by
  induction l1 generalizing s with
  | nil =>
    rw [routePhase_nil] at h1
    cases h1
    exact h2
  | cons a l1 ih =>
    obtain ⟨s1, ha, hrest⟩ := (routePhase_cons c a l1 s t).mp h1
    have hnone := ih s1 hrest
    cases hopt : routePhase c (a :: l1 ++ l2) s with
    | none => rfl
    | some r =>
      obtain ⟨s2, ha2, hr2⟩ := (routePhase_cons c a (l1 ++ l2) s r).mp hopt
      rw [ha] at ha2
      cases ha2
      rw [hnone] at hr2
      cases hr2

/-- When more than `MAXTHREADS` PEs send to one owner: after `MAXTHREADS` of them have routed,
the fetch-and-add of the next one returns `MAXTHREADS`, and its put is outside the buffer. -/
theorem routePhase_overflow (c : Params) (s : Sys) (l1 : List Nat) (q : Nat) (l2 : List Nat)
    (h1 : 0 ≤ logTableLocal c ∧ logTableLocal c < 64)
    (hn1 : 1 ≤ c.numNodes) (hn2 : c.numNodes < 2 ^ 31)
    (hnd : (l1 ++ q :: l2).Nodup) (hlen : l1.length = MAXTHREADS)
    (hsame : ∀ a, a ∈ l1 → s.ran a = s.ran q) :
    ∃ t, routePhase c l1 (roundStart s) = some t ∧
      (∃ t', fetchAdd c { t with ran := Function.update t.ran q (advance c.POLY (t.ran q)) } q
          (remote_proc c (advance c.POLY (t.ran q))) = some t' ∧
        t'.remotecount q = MAXTHREADS) ∧
      route c t q = none ∧
      routePhase c (l1 ++ q :: l2) (roundStart s) = none := by
  have hnd1 : l1.Nodup := (List.nodup_append.mp hnd).1
  have hq1 : q ∉ l1 := fun m =>
    (List.disjoint_of_nodup_append hnd) m (List.mem_cons_self q l2)
  have hrange := remote_proc_range c (advance c.POLY (s.ran q)) hn1 hn2
  have hcast : (((remote_proc c (advance c.POLY (s.ran q))).toNat : Nat) : Int)
      = remote_proc c (advance c.POLY (s.ran q)) := Int.toNat_of_nonneg hrange.1
  obtain ⟨t, ht, _⟩ := routePhase_isSome c l1 (roundStart s) 0 h1 hn1 hn2
    (fun p => Nat.le_refl 0) (by rw [hlen, Nat.zero_add])
  have hcount : t.count (remote_proc c (advance c.POLY (s.ran q))).toNat = MAXTHREADS := by
    rw [routePhase_same_owner c l1 s t _ hnd1 ht, hlen]
    intro a ha
    rw [hsame a ha, hcast]
  have hran : t.ran q = s.ran q := by
    rw [(routePhase_spec c l1 (roundStart s) t ht hnd1).2.1 q, if_neg hq1]
    rfl
  have hroute : route c t q = none := by
    cases hopt : route c t q with
    | none => rfl
    | some t2 =>
      obtain ⟨_, _, h3, _⟩ := route_eq_some c t t2 q hopt
      rw [hran, hcount] at h3
      exact absurd h3 (Nat.lt_irrefl _)
  refine ⟨t, ht, ?_, hroute, ?_⟩
  · rw [hran]
    unfold fetchAdd
    rw [if_pos hrange]
    refine ⟨_, rfl, ?_⟩
    simp only [Function.update_same]
    exact hcount
  · exact routePhase_append_none c l1 (q :: l2) (roundStart s) t ht
      (routePhase_cons_none c q l2 t hroute)

/-- C15: buffer capacity.  In a round in which every PE performs its one reservation, in any
order: (1) whenever the route phase is defined, the counters at the barrier sum to
`numNodes` and every reserved slot index is below `numNodes`; (2) with
`numNodes ≤ MAXTHREADS = 256` the route phase is defined and every put goes to an index
below `MAXTHREADS`; (3) with `numNodes > MAXTHREADS` and all PEs holding the same generator
value (equal starting offsets), all values have one owner: after `MAXTHREADS` PEs have
routed, the fetch-and-add of the next PE returns an index `≥ MAXTHREADS`, and the put of the
route phase is outside the buffer. -/
theorem buffer_capacity (c : Params) (sched : List Nat) (s : Sys)
    (hs : sched.Perm (List.range c.numNodes)) :
    (∀ m, routePhase c sched (roundStart s) = some m →
      ∑ p in Finset.range c.numNodes, m.count p = c.numNodes ∧
      ∀ q, q < c.numNodes → m.remotecount q < c.numNodes) ∧
    (c.numNodes ≤ MAXTHREADS → (0 ≤ logTableLocal c ∧ logTableLocal c < 64) →
      ∃ m, routePhase c sched (roundStart s) = some m ∧
        ∀ q, q < c.numNodes → m.remotecount q < MAXTHREADS) ∧
    (MAXTHREADS < c.numNodes → c.numNodes < 2 ^ 31 →
      (0 ≤ logTableLocal c ∧ logTableLocal c < 64) →
      (∀ a b, a < c.numNodes → b < c.numNodes → s.ran a = s.ran b) →
      routePhase c sched (roundStart s) = none ∧
      ∃ l1 q l2 t t', sched = l1 ++ q :: l2 ∧
        routePhase c l1 (roundStart s) = some t ∧
        fetchAdd c { t with ran := Function.update t.ran q (advance c.POLY (t.ran q)) } q
          (remote_proc c (advance c.POLY (t.ran q))) = some t' ∧
        MAXTHREADS ≤ t'.remotecount q) := by
  have hlen : sched.length = c.numNodes := by rw [hs.length_eq, List.length_range]
  have hmem : ∀ q, q ∈ sched → q < c.numNodes := fun q hq => by
    rw [hs.mem_iff, List.mem_range] at hq; exact hq
  refine ⟨?_, ?_, ?_⟩
  · intro m hm
    exact routePhase_capacity c sched s m hs hm
  · intro h2 h1
    obtain ⟨m, hm, _⟩ := routePhase_roundStart_isSome c sched s h1 h2 hs
    refine ⟨m, hm, fun q hq => ?_⟩
    exact Nat.lt_of_lt_of_le ((routePhase_capacity c sched s m hs hm).2 q hq) h2
  · intro hbig hint h1 hsame
    have hdrop : sched.drop MAXTHREADS ≠ [] := by
      intro e
      have := congrArg List.length e
      rw [List.length_drop, hlen] at this
      simp at this
      omega
    obtain ⟨q, l2, hql⟩ := List.exists_cons_of_ne_nil hdrop
    have hsplit : sched = sched.take MAXTHREADS ++ q :: l2 := by
      rw [← hql, List.take_append_drop]
    have hlen1 : (sched.take MAXTHREADS).length = MAXTHREADS := by
      rw [List.length_take, hlen]
      exact Nat.min_eq_left (Nat.le_of_lt hbig)
    have hnd : (sched.take MAXTHREADS ++ q :: l2).Nodup := by
      rw [← hsplit]; exact hs.nodup_iff.mpr (List.nodup_range _)
    have hq : q < c.numNodes := hmem q (by rw [hsplit]; simp)
    obtain ⟨t, ht, ⟨t', hf, hrc⟩, _, hnone⟩ := routePhase_overflow c s (sched.take MAXTHREADS)
      q l2 h1 (Nat.lt_of_le_of_lt (Nat.zero_le _) hbig) hint hnd hlen1
      (fun a ha => hsame a q (hmem a (List.mem_of_mem_take ha)) hq)
    refine ⟨by rw [hsplit]; exact hnone, sched.take MAXTHREADS, q, l2, t, t', hsplit, ht, hf, ?_⟩
    rw [hrc]

/-- Instance of C15: the scenario of the specification (4 PEs), and 512 PEs whose streams
all start at offset 0. -/
theorem buffer_capacity_witness :
    (∃ m, routePhase scenario (inOrder scenario 0) (roundStart (initialSys scenario)) = some m ∧
      ∀ q, q < scenario.numNodes → m.remotecount q < MAXTHREADS) ∧
    (routePhase crowded (inOrder crowded 0) (roundStart (setup crowded (initialSys crowded)))
        = none ∧
      ∃ l1 q l2 t t', inOrder crowded 0 = l1 ++ q :: l2 ∧
        routePhase crowded l1 (roundStart (setup crowded (initialSys crowded))) = some t ∧
        fetchAdd crowded
          { t with ran := Function.update t.ran q (advance crowded.POLY (t.ran q)) } q
          (remote_proc crowded (advance crowded.POLY (t.ran q))) = some t' ∧
        MAXTHREADS ≤ t'.remotecount q) :=
  ⟨(buffer_capacity scenario (inOrder scenario 0) (initialSys scenario)
      (List.Perm.refl _)).2.1 (by decide) (by decide),
    (buffer_capacity crowded (inOrder crowded 0) (setup crowded (initialSys crowded))
      (List.Perm.refl _)).2.2 (by decide) (by decide) (by decide) (fun _ _ _ _ => rfl)⟩

end Capacity

/-! ## Slot reservation and the capacity of the buffer -/

section ReservedSlots

end ReservedSlots

end GUPS
